import Mathlib

/-!
A verification development for the key-management and ciphertext-lifecycle
core of an HElib-style homomorphic encryption library (`FHE.cpp`).

The CRT-represented polynomial arithmetic engine (`DoubleCRT`) is external to
the verified core; it is modelled abstractly by a commutative ring `R`
(elements modulo the prime products and the cyclotomic polynomial) together
with an integer-coefficient ring `P` (the `ZZX` side, elements modulo the
cyclotomic polynomial only) and a coefficient interface.  Floating-point
quantities (`double`, `xdouble`) are idealized as rationals; square roots and
logarithms computed in floating point are passed in as exact oracle values.
-/

set_option maxHeartbeats 1000000
set_option maxRecDepth 100000

namespace HElib

instance {ε α : Type} [DecidableEq ε] [DecidableEq α] : DecidableEq (Except ε α) :=
  fun a b =>
  match a, b with
  | Except.error e1, Except.error e2 =>
    if h : e1 = e2 then isTrue (by rw [h])
    else isFalse (by intro hc; injection hc; exact h ‹_›)
  | Except.error _, Except.ok _ => isFalse (fun hc => Except.noConfusion hc)
  | Except.ok _, Except.error _ => isFalse (fun hc => Except.noConfusion hc)
  | Except.ok v1, Except.ok v2 =>
    if h : v1 = v2 then isTrue (by rw [h])
    else isFalse (by intro hc; injection hc; exact h ‹_›)

/-- Modelled from the spec: `SKHandle` (declared in the missing header
`FHE.h`): "(secretKeyID, powerOfS, powerOfX) — identifies which stored secret
key, raised to which power, and with its indeterminate substituted by which
power; compared by structural equality; a sentinel value denotes 'no secret
key component' (constant term)."  The sentinel is `powerOfS = 0`. -/
structure SKHandle where
  powerOfS : ℤ
  powerOfX : ℤ
  secretKeyID : ℤ
deriving DecidableEq, Repr

/-- Modelled from the spec: the handle denoting "no secret key component"
(what `SKHandle::setOne` produces). -/
def SKHandle.one : SKHandle := ⟨0, 1, 0⟩

/-- Modelled from the spec: the handle for the base secret key `s_i`
(what `SKHandle::setBase(i)` produces). -/
def SKHandle.base (i : ℤ) : SKHandle := ⟨1, 1, i⟩

/-- Modelled from the spec: `SKHandle::isOne` — the sentinel test. -/
def SKHandle.isOne (h : SKHandle) : Bool := h.powerOfS = 0

/-- A key-switching matrix (`class KeySwitch`), with the `DoubleCRT` digit
polynomials abstracted over a type `R`.  The 256-bit PRG seed is a natural
number; the `xdouble` noise estimate is idealized as a rational. -/
structure KeySwitch (R : Type) where
  fromKey : SKHandle
  toKeyID : ℤ
  ptxtSpace : ℤ
  b : List R
  prgSeed : ℕ
  noiseVar : ℚ
deriving DecidableEq

/-- `KeySwitch::dummy()`: the sentinel matrix `KeySwitch(-1,-1,-1,-1)`
(`toKeyID = -1`, empty digit vector). -/
def KeySwitch.dummy (R : Type) : KeySwitch R := ⟨⟨-1, -1, -1⟩, -1, -1, [], 0, 0⟩

/-- `KeySwitch::operator==` (FHE.cpp lines 64-78): compares `fromKey`,
`toKeyID`, `ptxtSpace`, `prgSeed` and the digit vector `b` (size, then
elementwise); the `noiseVar` field is not compared. -/
def KeySwitch.beq {R : Type} [DecidableEq R] (x other : KeySwitch R) : Bool :=
  if x.fromKey ≠ other.fromKey then false
  else if x.toKeyID ≠ other.toKeyID then false
  else if x.ptxtSpace ≠ other.ptxtSpace then false
  else if x.prgSeed ≠ other.prgSeed then false
  else if x.b.length ≠ other.b.length then false
  else if x.b ≠ other.b then false
  else true

/-- One ciphertext part: a `DoubleCRT` tagged with a secret-key handle. -/
structure CtxtPart (R : Type) where
  poly : R
  skHandle : SKHandle
deriving DecidableEq

/-- The ciphertext bookkeeping data (`class Ctxt`, external to FHE.cpp).
The prime set is represented by the product of its primes; `double` and
`xdouble` fields are rationals. -/
structure Ctxt (R : Type) where
  parts : List (CtxtPart R)
  primeSetProd : ℕ
  ptxtSpace : ℤ
  noiseVar : ℚ
  highWaterMark : ℤ
  ratFactor : ℚ
deriving DecidableEq

/-- Modelled from the spec: `Ctxt::equalsTo` (external, defined in the
missing `Ctxt.cpp`) with `comparePkeys=false` — structural equality of the
ciphertext data, ignoring the public-key reference (which this model does
not store). -/
def ctxtEqualsTo {R : Type} [DecidableEq R] (x y : Ctxt R) : Bool := decide (x = y)

/-- Modelled from the spec: the `FHE_KSS_UNKNOWN` strategy constant from the
missing header; trailing entries equal to it are insignificant in equality
comparisons.  Its numeric value is irrelevant to every property proved here. -/
def FHE_KSS_UNKNOWN : ℤ := 0

/-- The public key (`class FHEPubKey`).  The shared immutable context is
identified by `contextId` (the C++ code compares contexts by address). -/
structure FHEPubKey (R : Type) where
  contextId : ℕ
  pubEncrKey : Ctxt R
  skSizes : List ℤ
  keySwitching : List (KeySwitch R)
  keySwitchMap : List (List ℤ)
  KS_strategy : List ℤ
  recryptKeyID : ℤ
  recryptEkey : Ctxt R
deriving DecidableEq

/-- The trailing-`FHE_KSS_UNKNOWN` trimming loop of `FHEPubKey::operator==`:
`while (n >= 0 && KS_strategy[n-1] == FHE_KSS_UNKNOWN) n--`.  (At `n = 0` the
C++ loop reads index `-1`, out of bounds; the model exits the loop there.) -/
def trimUnknownLen (v : List ℤ) : ℕ → ℕ
  | 0 => 0
  | n + 1 => if v.getD n 0 = FHE_KSS_UNKNOWN then trimUnknownLen v n else n + 1

/-- `FHEPubKey::operator==` (FHE.cpp lines 509-548), translated clause by
clause.  Note the comparison of the key-switching registries: when the two
sizes differ the source returns `true` (line 521). -/
def fhePubKeyEq {R : Type} [DecidableEq R] (x other : FHEPubKey R) : Bool :=
  if x.contextId ≠ other.contextId then false
  else if ¬ (ctxtEqualsTo x.pubEncrKey other.pubEncrKey) then false
  else if x.skSizes.length ≠ other.skSizes.length then false
  else if x.skSizes ≠ other.skSizes then false
  else if x.keySwitching.length ≠ other.keySwitching.length then true
  else if ¬ ((x.keySwitching.zip other.keySwitching).all fun q => KeySwitch.beq q.1 q.2)
    then false
  else if x.keySwitchMap.length ≠ other.keySwitchMap.length then false
  else if x.keySwitchMap ≠ other.keySwitchMap then false
  else
    let n := trimUnknownLen x.KS_strategy x.KS_strategy.length
    let n1 := trimUnknownLen other.KS_strategy other.KS_strategy.length
    if n ≠ n1 then false
    else if ¬ ((List.range n).all fun i =>
        x.KS_strategy.getD i 0 = other.KS_strategy.getD i 0) then false
    else if x.recryptKeyID ≠ other.recryptKeyID then false
    else if 0 ≤ x.recryptKeyID ∧ ¬ (ctxtEqualsTo x.recryptEkey other.recryptEkey)
      then false
    else true

/-- `std::vector::at` with a signed index: returns `none` (models the thrown
`std::out_of_range`) when the index is negative or past the end. -/
def listAt {α : Type} (l : List α) (i : ℤ) : Option α :=
  if 0 ≤ i then l.get? i.toNat else none

/-! ### `FHEPubKey::setKeySwitchMap`: breadth-first search (FHE.cpp 266-311) -/

/-- `MulMod(currentNode, n, m)`: the node reached from `c` along an edge with
multiplier `k`. -/
def bfsNext (m : ℕ) (c : ℕ) (k : ℤ) : ℕ := (((c : ℤ) * k) % (m : ℤ)).toNat

/-- The inner edge loop of the BFS (FHE.cpp lines 297-308): for the node `c`
at the front of the queue, scan all edges; a node seen for the first time
(entry `-1`) records the index of the matrix whose edge reached it and is
pushed.  Returns the updated table and the newly pushed nodes, `none`
modelling the `std::out_of_range` thrown by `.at` on a bad index. -/
def bfsProcess (m : ℕ) (edges : List (ℤ × ℕ)) (c : ℕ) (map : List ℤ) :
    Option (List ℤ × List ℕ) :=
  edges.foldlM (fun acc e =>
    match acc.1.get? (bfsNext m c e.1) with
    | none => none
    | some v =>
      some (if v = -1
        then (acc.1.set (bfsNext m c e.1) (e.2 : ℤ), acc.2 ++ [bfsNext m c e.1])
        else acc))
    (map, [])

/-- Number of unvisited (`-1`) entries in the table; the termination measure
of the BFS queue loop. -/
def negCount (map : List ℤ) : ℕ := map.countP (· = -1)

theorem negCount_set_lt {map : List ℤ} {n : ℕ} {x : ℤ}
    (hget : map.get? n = some (-1)) (hx : x ≠ -1) :
    negCount (map.set n x) < negCount map := by
  have hn : n < map.length := by
    by_contra hlen
    rw [List.get?_eq_none.2 (le_of_not_lt hlen)] at hget
    exact Option.noConfusion hget
  have hv : map.get? n = some (map.get ⟨n, hn⟩) := List.get?_eq_get hn
  rw [hget] at hv
  have hset := List.set_eq_take_cons_drop x hn
  have hmap : map = map.take n ++ map.get ⟨n, hn⟩ :: map.drop (n + 1) := by
    have := List.take_append_drop n map
    rw [List.drop_eq_getElem_cons hn] at this
    exact this.symm
  unfold negCount
  rw [hset]
  conv_rhs => rw [hmap]
  have hx0 : map.get ⟨n, hn⟩ = -1 := Option.some.inj hv.symm
  simp only [List.countP_append, List.countP_cons, hx0]
  simp only [decide_eq_true_eq, hx]
  simp

/-- The foldl of `bfsProcess` either leaves the accumulator unchanged or
strictly decreases the count of unvisited entries. -/
theorem bfsProcess_fold_cases (m : ℕ) (c : ℕ) (edges : List (ℤ × ℕ)) :
    ∀ (acc res : List ℤ × List ℕ),
      (edges.foldlM (fun acc e =>
        match acc.1.get? (bfsNext m c e.1) with
        | none => none
        | some v =>
          some (if v = -1
            then (acc.1.set (bfsNext m c e.1) (e.2 : ℤ), acc.2 ++ [bfsNext m c e.1])
            else acc))
        acc) = some res →
      negCount res.1 < negCount acc.1 ∨ res = acc := by
  induction edges with
  | nil =>
    intro acc res h
    right
    exact (Option.some.inj h).symm
  | cons e es ih =>
    intro acc res h
    rw [List.foldlM_cons] at h
    cases hg : acc.1.get? (bfsNext m c e.1) with
    | none => rw [hg] at h; exact Option.noConfusion h
    | some v =>
      rw [hg] at h
      simp only [Option.bind_eq_bind, Option.some_bind] at h
      by_cases hv : v = -1
      · rw [if_pos hv] at h
        subst hv
        have hdec : negCount (acc.1.set (bfsNext m c e.1) (e.2 : ℤ)) < negCount acc.1 :=
          negCount_set_lt hg (by omega)
        rcases ih _ _ h with h1 | h1
        · left; exact lt_trans h1 hdec
        · left; rw [h1]; exact hdec
      · rw [if_neg hv] at h
        exact ih _ _ h

/-- The BFS queue loop of `setKeySwitchMap` (FHE.cpp lines 291-310): a
standard FIFO breadth-first search seeded at node 1. -/
def bfsLoop (m : ℕ) (edges : List (ℤ × ℕ)) (map : List ℤ) (queue : List ℕ) :
    Option (List ℤ) :=
  match queue with
  | [] => some map
  | c :: rest =>
    match h : bfsProcess m edges c map with
    | none => none
    | some p => bfsLoop m edges p.1 (rest ++ p.2)
termination_by (negCount map, queue.length)
decreasing_by
  rcases bfsProcess_fold_cases m c edges (map, []) p h with h1 | h1
  · exact Prod.Lex.left _ _ h1
  · rw [h1]
    apply Prod.Lex.right
    simp

/-- A node of the BFS table is marked when its entry is not the `-1`
sentinel, i.e. some matrix index has been recorded for it. -/
def marked (map : List ℤ) (t : ℕ) : Prop := map.getD t (-1) ≠ -1

instance (map : List ℤ) (t : ℕ) : Decidable (marked map t) := by
  unfold marked; infer_instance

theorem marked_iff {map : List ℤ} {t : ℕ} :
    marked map t ↔ ∃ v, map.get? t = some v ∧ v ≠ -1 := by
  unfold marked
  rw [List.getD_eq_getElem?_getD, ← List.get?_eq_getElem?]
  cases h : map.get? t with
  | none => simp
  | some v => simp

theorem marked_set_self {map : List ℤ} {n : ℕ} {x : ℤ}
    (hn : n < map.length) (hx : x ≠ -1) : marked (map.set n x) n := by
  rw [marked_iff]
  exact ⟨x, by rw [List.get?_set_eq_of_lt _ hn], hx⟩

theorem marked_set_preserve {map : List ℤ} {n t : ℕ} {x : ℤ}
    (hx : x ≠ -1) (h : marked map t) : marked (map.set n x) t := by
  rw [marked_iff] at h ⊢
  obtain ⟨v, hv, hvne⟩ := h
  by_cases hnt : n = t
  · subst hnt
    have hn : n < map.length := List.get?_eq_some.1 hv |>.1
    exact ⟨x, by rw [List.get?_set_eq_of_lt _ hn], hx⟩
  · exact ⟨v, by rw [List.get?_set_ne _ _ hnt]; exact hv, hvne⟩

theorem marked_set_cases {map : List ℤ} {n t : ℕ} {x : ℤ}
    (h : marked (map.set n x) t) : t = n ∨ marked map t := by
  by_cases hnt : n = t
  · exact Or.inl hnt.symm
  · right
    rw [marked_iff] at h ⊢
    obtain ⟨v, hv, hvne⟩ := h
    rw [List.get?_set_ne _ _ hnt] at hv
    exact ⟨v, hv, hvne⟩

/-- Full characterization of the inner edge loop: lengths are preserved,
marking is monotone, every edge out of `c` ends up marked, and the newly
pushed nodes are exactly the newly marked ones, all of them successors
of `c`. -/
theorem bfsProcess_fold_spec (m : ℕ) (c : ℕ) (edges : List (ℤ × ℕ)) :
    ∀ (amap : List ℤ) (anew : List ℕ) (mp : List ℤ) (new : List ℕ),
      (edges.foldlM (fun acc e =>
        match acc.1.get? (bfsNext m c e.1) with
        | none => none
        | some v =>
          some (if v = -1
            then (acc.1.set (bfsNext m c e.1) (e.2 : ℤ), acc.2 ++ [bfsNext m c e.1])
            else acc))
        (amap, anew)) = some (mp, new) →
      mp.length = amap.length
    ∧ (∀ t, marked amap t → marked mp t)
    ∧ (∀ t, marked mp t → marked amap t ∨ ∃ k ∈ edges.map Prod.fst, t = bfsNext m c k)
    ∧ (∀ k ∈ edges.map Prod.fst, marked mp (bfsNext m c k))
    ∧ (∀ t ∈ new, t ∈ anew ∨ ∃ k ∈ edges.map Prod.fst, t = bfsNext m c k)
    ∧ (∀ t, marked mp t → ¬ marked amap t → t ∈ new)
    ∧ (∀ t ∈ anew, t ∈ new) := by
  induction edges with
  | nil =>
    intro amap anew mp new h
    obtain ⟨h1, h2⟩ := Prod.mk.injEq .. ▸ Option.some.inj h
    subst h1; subst h2
    refine ⟨rfl, fun t h => h, fun t h => Or.inl h, by simp, fun t ht => Or.inl ht,
      fun t h h2 => absurd h h2, fun t ht => ht⟩
  | cons e es ih =>
    intro amap anew mp new h
    rw [List.foldlM_cons] at h
    cases hg : amap.get? (bfsNext m c e.1) with
    | none => rw [hg] at h; exact Option.noConfusion h
    | some v =>
      rw [hg] at h
      simp only [Option.bind_eq_bind, Option.some_bind] at h
      by_cases hv : v = -1
      · subst hv
        rw [if_pos rfl] at h
        have hn : bfsNext m c e.1 < amap.length := List.get?_eq_some.1 hg |>.1
        have hxne : ((e.2 : ℤ)) ≠ -1 := by omega
        obtain ⟨l1, mono, cases3, succ4, new5, newly6, pre7⟩ := ih _ _ _ _ h
        refine ⟨by rw [l1, List.length_set], ?_, ?_, ?_, ?_, ?_, ?_⟩
        · intro t ht
          exact mono t (marked_set_preserve hxne ht)
        · intro t ht
          rcases cases3 t ht with h3 | h3
          · rcases marked_set_cases h3 with h4 | h4
            · exact Or.inr ⟨e.1, by simp, h4⟩
            · exact Or.inl h4
          · obtain ⟨k, hk, hkeq⟩ := h3
            exact Or.inr ⟨k, by simp [hk], hkeq⟩
        · intro k hk
          rcases List.mem_map.1 hk with ⟨e2, he2, rfl⟩
          rcases List.mem_cons.1 he2 with h4 | h4
          · subst h4
            exact mono _ (marked_set_self hn hxne)
          · exact succ4 _ (List.mem_map.2 ⟨e2, h4, rfl⟩)
        · intro t ht
          rcases new5 t ht with h4 | h4
          · rcases List.mem_append.1 h4 with h5 | h5
            · exact Or.inl h5
            · rcases List.mem_singleton.1 h5 with rfl
              exact Or.inr ⟨e.1, by simp, rfl⟩
          · obtain ⟨k, hk, hkeq⟩ := h4
            exact Or.inr ⟨k, by simp [hk], hkeq⟩
        · intro t ht hnt
          by_cases hmid : marked (amap.set (bfsNext m c e.1) (e.2 : ℤ)) t
          · rcases marked_set_cases hmid with rfl | h4
            · exact pre7 _ (by simp)
            · exact absurd h4 hnt
          · exact newly6 t ht hmid
        · intro t ht
          exact pre7 t (List.mem_append_left _ ht)
      · rw [if_neg hv] at h
        obtain ⟨l1, mono, cases3, succ4, new5, newly6, pre7⟩ := ih _ _ _ _ h
        refine ⟨l1, mono, ?_, ?_, ?_, newly6, pre7⟩
        · intro t ht
          rcases cases3 t ht with h3 | h3
          · exact Or.inl h3
          · obtain ⟨k, hk, hkeq⟩ := h3
            exact Or.inr ⟨k, by simp [hk], hkeq⟩
        · intro k hk
          rcases List.mem_map.1 hk with ⟨e2, he2, rfl⟩
          rcases List.mem_cons.1 he2 with h4 | h4
          · subst h4
            refine mono _ (marked_iff.2 ⟨v, hg, hv⟩)
          · exact succ4 _ (List.mem_map.2 ⟨e2, h4, rfl⟩)
        · intro t ht
          rcases new5 t ht with h4 | h4
          · exact Or.inl h4
          · obtain ⟨k, hk, hkeq⟩ := h4
            exact Or.inr ⟨k, by simp [hk], hkeq⟩

/-- `bfsProcess` characterization, specialized to the empty initial
new-node list. -/
theorem bfsProcess_spec {m : ℕ} {c : ℕ} {edges : List (ℤ × ℕ)}
    {map mp : List ℤ} {new : List ℕ}
    (h : bfsProcess m edges c map = some (mp, new)) :
    mp.length = map.length
    ∧ (∀ t, marked map t → marked mp t)
    ∧ (∀ t, marked mp t → marked map t ∨ ∃ k ∈ edges.map Prod.fst, t = bfsNext m c k)
    ∧ (∀ k ∈ edges.map Prod.fst, marked mp (bfsNext m c k))
    ∧ (∀ t ∈ new, ∃ k ∈ edges.map Prod.fst, t = bfsNext m c k)
    ∧ (∀ t, marked mp t → ¬ marked map t → t ∈ new) := by
  obtain ⟨l1, mono, cases3, succ4, new5, newly6, _⟩ :=
    bfsProcess_fold_spec m c edges map [] mp new h
  refine ⟨l1, mono, cases3, succ4, fun t ht => ?_, newly6⟩
  rcases new5 t ht with h4 | h4
  · exact absurd h4 (List.not_mem_nil t)
  · exact h4

/-- The powers of X reachable from node 1 by nonempty products of the edge
multipliers, taken modulo `m` — the set the spec's routing table must cover. -/
inductive Reach (m : ℕ) (K : List ℤ) : ℕ → Prop where
  | base {k : ℤ} (hk : k ∈ K) : Reach m K (bfsNext m 1 k)
  | step {t : ℕ} {k : ℤ} (ht : Reach m K t) (hk : k ∈ K) : Reach m K (bfsNext m t k)

/-- BFS invariant argument: starting from a table whose marked nodes are
reachable, a queue of reachable-or-root nodes, and the property that every
fully processed node has all its successors marked, the final table marks
exactly the reachable nodes. -/
theorem bfsLoop_spec (m : ℕ) (edges : List (ℤ × ℕ)) (map : List ℤ) (queue : List ℕ) :
    ∀ (res : List ℤ), bfsLoop m edges map queue = some res →
    (∀ t, marked map t → Reach m (edges.map Prod.fst) t) →
    (∀ c ∈ queue, c = 1 ∨ Reach m (edges.map Prod.fst) c) →
    (∀ c, (c = 1 ∨ marked map c) → c ∉ queue →
       ∀ k ∈ edges.map Prod.fst, marked map (bfsNext m c k)) →
    ∀ t, marked res t ↔ Reach m (edges.map Prod.fst) t := by
  induction map, queue using bfsLoop.induct m edges with
  | case1 map =>
    intro res hres hsound hq hproc t
    unfold bfsLoop at hres
    obtain rfl : map = res := Option.some.inj hres
    constructor
    · exact hsound t
    · intro hr
      induction hr with
      | base hk => exact hproc 1 (Or.inl rfl) (List.not_mem_nil 1) _ hk
      | step ht hk ih => exact hproc _ (Or.inr ih) (List.not_mem_nil _) _ hk
  | case2 map c rest hstep =>
    intro res hres
    unfold bfsLoop at hres
    split at hres
    · exact Option.noConfusion hres
    · next p2 heq =>
      rw [hstep] at heq
      exact Option.noConfusion heq
  | case3 map c rest p hstep ih =>
    intro res hres hsound hq hproc t
    have hres2 : bfsLoop m edges p.1 (rest ++ p.2) = some res := by
      unfold bfsLoop at hres
      split at hres
      · exact Option.noConfusion hres
      · next p2 heq =>
        rw [hstep] at heq
        obtain rfl : p2 = p := (Option.some.inj heq).symm
        exact hres
    obtain ⟨_, mono, cases3, succ4, new5, newly6⟩ :=
      @bfsProcess_spec m c edges map p.1 p.2 (by rw [hstep])
    refine ih res hres2 ?_ ?_ ?_ t
    · intro u hu
      rcases cases3 u hu with h3 | h3
      · exact hsound u h3
      · obtain ⟨k, hk, rfl⟩ := h3
        rcases hq c (List.mem_cons_self c rest) with rfl | hrc
        · exact Reach.base hk
        · exact Reach.step hrc hk
    · intro d hd
      rcases List.mem_append.1 hd with h4 | h4
      · exact hq d (List.mem_cons_of_mem c h4)
      · obtain ⟨k, hk, rfl⟩ := new5 d h4
        rcases hq c (List.mem_cons_self c rest) with rfl | hrc
        · exact Or.inr (Reach.base hk)
        · exact Or.inr (Reach.step hrc hk)
    · intro d hd hdq k hk
      by_cases hdc : d = c
      · subst hdc
        exact succ4 k hk
      · have hd0 : d = 1 ∨ marked map d := by
          rcases hd with rfl | hdm
          · exact Or.inl rfl
          · rcases (em (marked map d)) with h5 | h5
            · exact Or.inr h5
            · exact absurd (newly6 d hdm h5)
                (fun hmem => hdq (List.mem_append.2 (Or.inr hmem)))
        have : d ∉ c :: rest := by
          intro hmem
          rcases List.mem_cons.1 hmem with h6 | h6
          · exact hdc h6
          · exact hdq (List.mem_append.2 (Or.inl h6))
        exact mono _ (hproc d hd0 this k hk)

theorem bfsLoop_nil (m : ℕ) (edges : List (ℤ × ℕ)) (map : List ℤ) :
    bfsLoop m edges map [] = some map := by
  unfold bfsLoop
  rfl

theorem bfsLoop_cons_eq {m : ℕ} {edges : List (ℤ × ℕ)} {map : List ℤ} {c : ℕ}
    {rest : List ℕ} {p : List ℤ × List ℕ}
    (h : bfsProcess m edges c map = some p) :
    bfsLoop m edges map (c :: rest) = bfsLoop m edges p.1 (rest ++ p.2) := by
  conv_lhs => unfold bfsLoop
  split
  · next heq =>
    rw [h] at heq
    exact Option.noConfusion heq
  · next p2 heq =>
    rw [h] at heq
    obtain rfl : p2 = p := (Option.some.inj heq).symm
    rfl

/-- The edge list built at FHE.cpp lines 276-282: one edge per registered
matrix with `toKeyID == keyId`, `fromKey.getPowerOfS() == 1` and
`fromKey.getSecretKeyID() == keyId`, pairing the matrix's power of X with its
index in the key-switching registry. -/
def ksEdges {R : Type} (pk : FHEPubKey R) (keyId : ℤ) : List (ℤ × ℕ) :=
  pk.keySwitching.enum.filterMap fun ie =>
    if ie.2.toKeyID = keyId ∧ ie.2.fromKey.powerOfS = 1 ∧ ie.2.fromKey.secretKeyID = keyId
    then some (ie.2.fromKey.powerOfX, ie.1) else none

/-- `FHEPubKey::setKeySwitchMap` (FHE.cpp 266-311): allocate the table row
for `keyId` (resizing if needed), initialize it with `m` entries of `-1`, and
run the breadth-first search from node 1.  The cyclotomic index `m` is the
context's `zMStar.getM()`; `none` models the failed entry assertion. -/
def setKeySwitchMap {R : Type} (pk : FHEPubKey R) (m : ℕ) (keyId : ℤ) :
    Option (FHEPubKey R) :=
  if ¬ (0 ≤ keyId ∧ keyId < (pk.skSizes.length : ℤ)) then none
  else
    match bfsLoop m (ksEdges pk keyId) (List.replicate m (-1)) [1] with
    | none => none
    | some mp =>
      some { pk with keySwitchMap :=
        (if (pk.keySwitchMap.length : ℤ) ≤ keyId
         then pk.keySwitchMap ++ List.replicate (keyId.toNat + 1 - pk.keySwitchMap.length) []
         else pk.keySwitchMap).set keyId.toNat mp }

theorem not_marked_replicate (n t : ℕ) : ¬ marked (List.replicate n (-1 : ℤ)) t := by
  intro h
  rcases marked_iff.1 h with ⟨v, hv, hvne⟩
  rw [List.get?_eq_getElem?, List.getElem?_replicate] at hv
  split at hv
  · exact hvne (Option.some.inj hv).symm
  · exact Option.noConfusion hv

theorem reach_pow (m : ℕ) (hm : 1 ≤ m) (K : List ℤ) {k : ℤ} (hk : k ∈ K) :
    ∀ j : ℕ, 1 ≤ j → Reach m K ((k ^ j % (m : ℤ)).toNat) := by
  intro j hj
  induction j with
  | zero => omega
  | succ i ih =>
    by_cases hi : i = 0
    · subst hi
      have := Reach.base (m := m) hk
      unfold bfsNext at this
      simpa using this
    · have hrec := ih (by omega)
      have := Reach.step hrec hk
      unfold bfsNext at this
      have hnn : 0 ≤ k ^ i % (m : ℤ) := Int.emod_nonneg _ (by omega)
      rw [Int.toNat_of_nonneg hnn] at this
      have heq : (k ^ i % (m : ℤ) * k) % (m : ℤ) = k ^ (i + 1) % (m : ℤ) := by
        rw [Int.mul_emod, Int.emod_emod_of_dvd _ dvd_rfl, ← Int.mul_emod, pow_succ]
      rwa [heq] at this

theorem reach_one (m : ℕ) (hm : 2 ≤ m) (K : List ℤ) (hK : K ≠ [])
    (hu : ∀ k ∈ K, IsUnit ((k : ZMod m))) : Reach m K 1 := by
  obtain ⟨k, hk⟩ := List.exists_mem_of_ne_nil K hK
  haveI : NeZero m := ⟨by omega⟩
  obtain ⟨u, hu1⟩ := hu k hk
  have hord : 1 ≤ orderOf u := orderOf_pos u
  have hpow : ((k : ZMod m)) ^ orderOf u = 1 := by
    rw [← hu1, ← Units.val_pow_eq_pow_val, pow_orderOf_eq_one, Units.val_one]
  have hcast : ((k ^ orderOf u : ℤ) : ZMod m) = ((1 : ℤ) : ZMod m) := by
    push_cast
    exact hpow
  have hmod : k ^ orderOf u % (m : ℤ) = 1 % (m : ℤ) :=
    (ZMod.intCast_eq_intCast_iff _ _ _).1 hcast
  have h1m : (1 : ℤ) % (m : ℤ) = 1 := Int.emod_eq_of_lt (by norm_num) (by exact_mod_cast hm)
  have hr := reach_pow m (by omega) K hk (orderOf u) hord
  rw [hmod, h1m] at hr
  simpa using hr

/-- **C3**: after `setKeySwitchMap(keyId)` runs, the rebuilt table row holds
a matrix index (is not the `-1` sentinel) at a power `t` exactly when `t` is
reachable as a (nonempty) product of the multipliers of the registered
matrices with `fromSPower == 1` and `fromKey.secretKeyID == toKeyID == keyId`;
and when at least one such matrix exists and every multiplier is a unit
modulo `m` (so that the reachable set is the generated subgroup), the
identity power 1 is present as well. -/
theorem setKeySwitchMap_reachability {R : Type} (pk pk2 : FHEPubKey R) (m : ℕ)
    (keyId : ℤ) (h : setKeySwitchMap pk m keyId = some pk2) :
    (∀ t : ℕ,
      (pk2.keySwitchMap.getD keyId.toNat []).getD t (-1) ≠ -1 ↔
        Reach m ((ksEdges pk keyId).map Prod.fst) t)
    ∧ (2 ≤ m → (ksEdges pk keyId).map Prod.fst ≠ [] →
        (∀ k ∈ (ksEdges pk keyId).map Prod.fst, IsUnit ((k : ZMod m))) →
        (pk2.keySwitchMap.getD keyId.toNat []).getD 1 (-1) ≠ -1) := by
  unfold setKeySwitchMap at h
  split at h
  · exact Option.noConfusion h
  · next hguard =>
    rw [not_not] at hguard
    split at h
    · exact Option.noConfusion h
    · next mp hbfs =>
      obtain rfl : _ = pk2 := Option.some.inj h
      have hiff := bfsLoop_spec m (ksEdges pk keyId) (List.replicate m (-1)) [1]
        mp hbfs
        (fun t ht => absurd ht (not_marked_replicate m t))
        (fun c hc => Or.inl (List.mem_singleton.1 hc))
        (fun c hc hcq k _ => by
          rcases hc with rfl | hcm
          · exact absurd (List.mem_singleton.2 rfl) hcq
          · exact absurd hcm (not_marked_replicate m c))
      have hlen : keyId.toNat <
          (if (pk.keySwitchMap.length : ℤ) ≤ keyId
           then pk.keySwitchMap ++
             List.replicate (keyId.toNat + 1 - pk.keySwitchMap.length) []
           else pk.keySwitchMap).length := by
        split
        · next hle =>
          rw [List.length_append, List.length_replicate]
          omega
        · next hlt =>
          omega
      have hproj : ∀ (v : List (List ℤ)),
          ({ pk with keySwitchMap := v } : FHEPubKey R).keySwitchMap = v :=
        fun _ => rfl
      have hrow : ∀ (l : List (List ℤ)) (hl : keyId.toNat < l.length),
          ((l.set keyId.toNat mp).getD keyId.toNat []) = mp := by
        intro l hl
        rw [List.getD_eq_getElem?_getD,
          List.getElem?_set_eq_of_lt _ hl]
        rfl
      rw [hproj, hrow _ hlen]
      constructor
      · exact fun t => hiff t
      · intro hm hKne hKu
        exact (hiff 1).2 (reach_one m hm _ hKne hKu)

/-! ### The scheme context and the abstract CRT polynomial engine -/

/-- The immutable scheme context (`FHEcontext`, external): only the fields
consumed by FHE.cpp are modelled.  Prime sets are represented by the product
of their primes; `stdev` is the configured Gaussian width and `sqrtM` the
(idealized) value of `sqrt(m)` that the code computes in floating point. -/
structure FHEcontextModel where
  m : ℕ
  phiM : ℕ
  pow2 : Bool
  stdev : ℚ
  sqrtM : ℚ
  ctxtPrimesProd : ℕ
  specialPrimesProd : ℕ
  digitsProds : List ℕ
  ckks : Bool
  pPowR : ℤ
  bootstrappable : Bool
  rcPPowR : ℤ
  encodeScalingFactor : ℤ
deriving DecidableEq

/-- Oracle for the floating-point `sqrt` and `log2` calls in the CKKS
scaling-factor computations; their exact values are irrelevant to every
property proved here. -/
structure RealOps where
  sqrt : ℚ → ℚ
  log2 : ℕ → ℚ

/-- Modelled from the spec: the external, opaque CRT polynomial arithmetic
engine (`DoubleCRT` and `ZZX`).  `P` is the ring of integer-coefficient
polynomials modulo the cyclotomic polynomial (the `ZZX` side, with a
canonical degree-bounded representation whose coefficients `coeff` exposes);
`R` is the same ring further reduced modulo the product `Q` of the primes
(the `DoubleCRT` side).  `enc` is the reduction homomorphism (conversion
`ZZX → DoubleCRT`) and `toPoly` the conversion back to coefficient form,
producing the balanced representative: on the class of a polynomial with
coefficients in `[-Q/2, Q/2)` it returns exactly that polynomial. -/
structure CrtEngine (P R : Type) [CommRing P] [CommRing R] where
  n : ℕ
  Q : ℕ
  two_le_Q : 2 ≤ Q
  enc : P →+* R
  coeff : P → Fin n → ℤ
  mkP : (Fin n → ℤ) → P
  automorph : ℤ → R → R
  coeff_mk : ∀ f, coeff (mkP f) = f
  mk_coeff : ∀ x, mkP (coeff x) = x
  coeff_add : ∀ x y i, coeff (x + y) i = coeff x i + coeff y i
  coeff_intMul : ∀ (z : ℤ) (x) (i), coeff ((z : P) * x) i = z * coeff x i
  toPoly : R → P
  toPoly_enc : ∀ x : P, (∀ i, -(Q : ℤ) ≤ 2 * coeff x i ∧ 2 * coeff x i < (Q : ℤ)) →
    toPoly (enc x) = x

variable {P R : Type} [CommRing P] [CommRing R]

/-- The balanced-coefficient bound under which `toPoly` recovers a
polynomial exactly: every coefficient lies in `[-Q/2, Q/2)`. -/
def balanced (E : CrtEngine P R) (x : P) : Prop :=
  ∀ i, -(E.Q : ℤ) ≤ 2 * E.coeff x i ∧ 2 * E.coeff x i < (E.Q : ℤ)

instance (E : CrtEngine P R) (x : P) : Decidable (balanced E x) := by
  unfold balanced; infer_instance

/-! ### The RLWE sampler (FHE.cpp 21-59) -/

/-- The noise variance returned by `RLWE1` (FHE.cpp lines 31-34 and 47-48):
the configured Gaussian width, multiplied by `sqrt(m)` when the cyclotomic
index is not a power of two, squared, times `p²`, times `m` or `phi(m)`
according to the power-of-two flag. -/
def RLWE1var (ctx : FHEcontextModel) (p : ℤ) : ℚ :=
  let stdev := if ctx.pow2 then ctx.stdev else ctx.stdev * ctx.sqrtM
  stdev * stdev * ((p : ℚ) * (p : ℚ)) *
    (if ctx.pow2 then (ctx.m : ℚ) else (ctx.phiM : ℚ))

/-- `RLWE1` (FHE.cpp 24-49): given the already-chosen `c1`, sample a short
error `e` (supplied as its integer-coefficient representative), set
`c0 = p·e - c1·s` (multiplying by `p` only when `p > 1`), and return `c0`
together with the variance estimate.  (The source asserts `p > 0`.) -/
def RLWE1 (E : CrtEngine P R) (ctx : FHEcontextModel) (c1 s : R) (p : ℤ) (e : P) :
    R × ℚ :=
  let c0 := E.enc e
  let c0 := if p > 1 then (p : R) * c0 else c0
  let c0 := c0 - c1 * s
  (c0, RLWE1var ctx p)

/-- `RLWE` (FHE.cpp 53-59): additionally draw `c1` at random; the draw is
supplied as the integer-coefficient representative `a1` of the uniform
sample. -/
def RLWE (E : CrtEngine P R) (ctx : FHEcontextModel) (s : R) (p : ℤ) (a1 e : P) :
    R × R × ℚ :=
  let c1 := E.enc a1
  let rl := RLWE1 E ctx c1 s p e
  (rl.1, c1, rl.2)

/-! ### Matrix lookup (FHE.cpp 313-351) and the secret key -/

/-- The secret key (`class FHESecKey : public FHEPubKey`). -/
structure FHESecKeyModel (R : Type) extends FHEPubKey R where
  sKeys : List R
deriving DecidableEq

/-- The linear-scan fallback of `FHEPubKey::getKeySWmatrix` (FHE.cpp
326-331): scan the registry for an exact `(fromKey, toKeyID)` match and
return the dummy sentinel when nothing is found. -/
def getKeySWscan {R : Type} [DecidableEq R] (pk : FHEPubKey R)
    (fr : SKHandle) (toIdx : ℤ) : Option (KeySwitch R) :=
  match pk.keySwitching.find? (fun ks => ks.toKeyID = toIdx ∧ ks.fromKey = fr) with
  | some matrix => some matrix
  | none => some (KeySwitch.dummy R)

/-- `FHEPubKey::getKeySWmatrix` (FHE.cpp 313-332): first consult the
key-switching map, verifying that the stored matrix's `fromKey` still equals
the request; on any miss fall back to the linear scan.  `none` models an
`std::out_of_range` thrown by `.at`. -/
def getKeySWmatrix {R : Type} [DecidableEq R] (pk : FHEPubKey R)
    (fr : SKHandle) (toIdx : ℤ) : Option (KeySwitch R) :=
  if fr.powerOfS = 1 ∧ fr.secretKeyID = toIdx ∧ toIdx < (pk.keySwitchMap.length : ℤ)
  then
    match listAt pk.keySwitchMap toIdx with
    | none => none
    | some row =>
      match listAt row fr.powerOfX with
      | none => none
      | some matIdx =>
        if 0 ≤ matIdx then
          match listAt pk.keySwitching matIdx with
          | none => none
          | some matrix =>
            if matrix.fromKey = fr then some matrix
            else getKeySWscan pk fr toIdx
        else getKeySWscan pk fr toIdx
  else getKeySWscan pk fr toIdx

/-- Modelled from the spec: `FHESecKey::haveKeySWmatrix` (declared in the
missing header `FHE.h`): "Skip if an equivalent matrix already exists
(idempotent generation)" — an equivalent matrix is one found by
`getKeySWmatrix` for the same source handle and destination, i.e. a non-dummy
result (`toKeyID ≥ 0`). -/
def haveKeySWmatrix {R : Type} [DecidableEq R] (pk : FHEPubKey R)
    (fromSPower fromXPower fromIdx toIdx : ℤ) : Option Bool :=
  (getKeySWmatrix pk ⟨fromSPower, fromXPower, fromIdx⟩ toIdx).map
    fun matrix => decide (0 ≤ matrix.toKeyID)

/-! ### Encryption (FHE.cpp 354-507) -/

/-- The random draws consumed by one `FHEPubKey::Encrypt` /
`FHEPubKey::CKKSencrypt` call, supplied as oracles: the small randomizer
`r`, the Gaussian draw used for the `i`-th ciphertext part, and the uniform
draw over a given bound (used for part 0 of a high-noise encryption).  All
samples are given by their integer-coefficient representatives. -/
structure EncRandom (P : Type) where
  r : P
  gauss : ℕ → P
  uniform : ℤ → P

/-- The plaintext contribution added into part 0 (FHE.cpp 414-422): added
directly when the plaintext space is 2, otherwise first multiplied
coefficientwise by `Q mod ptxtSpace` with coefficients reduced into
`[0, ptxtSpace)` (NTL `MulMod`), where `Q` is the product of the
ciphertext's primes. -/
def encodePtxt (E : CrtEngine P R) (Qprod : ℕ) (p : ℤ) (ptxt : P) : P :=
  if p = 2 then ptxt
  else E.mkP fun i => (E.coeff ptxt i * ((Qprod : ℤ) % p)) % p

/-- `FHEPubKey::CKKSencrypt` (FHE.cpp 456-507). -/
def CKKSencrypt (E : CrtEngine P R) (ctx : FHEcontextModel) (ro : RealOps)
    (fbl : Ctxt R → ℤ) (pk : FHEPubKey R) (ptxt : P) (ptxtSize : ℤ)
    (rnd : EncRandom P) : Except String (Ctxt R × ℤ) :=
  let ctxt0 := pk.pubEncrKey
  let stdev := if ctx.pow2 then ctx.stdev else ctx.stdev * ctx.sqrtM
  let newParts := ctxt0.parts.mapIdx fun i part =>
    { part with poly := part.poly * E.enc rnd.r + E.enc (rnd.gauss i) }
  let rVar : ℚ := if ¬ ctx.pow2 then (ctx.phiM : ℚ) / 2 else (ctx.m : ℚ) / 2
  let eVar : ℚ := stdev * stdev
  let sVar : ℚ := ((pk.skSizes.getD 0 0 : ℤ) : ℚ)
  let noiseVar : ℚ := pk.pubEncrKey.noiseVar * rVar + sVar * (eVar + 1)
  let factor := ctx.encodeScalingFactor
  let precision := ctx.pPowR
  let extraFactor : ℤ :=
    Int.ceil ((precision : ℚ) * ro.sqrt noiseVar * ro.log2 ctx.m / (factor : ℚ))
  let factor2 := if extraFactor > 1 then factor * extraFactor else factor
  let ptxtTerm : P := if extraFactor > 1 then ptxt * (extraFactor : P) else ptxt
  let newParts := newParts.modifyHead fun part =>
    { part with poly := part.poly + E.enc ptxtTerm }
  let ctxt1 := { ctxt0 with
    parts := newParts
    noiseVar := noiseVar + rVar * (factor2 : ℚ) * (ptxtSize : ℚ)
      * (factor2 : ℚ) * (ptxtSize : ℚ)
    ptxtSpace := 1 }
  Except.ok ({ ctxt1 with highWaterMark := fbl ctxt1, ratFactor := (factor2 : ℚ) },
    factor2)

/-- The plaintext-space resolution of `FHEPubKey::Encrypt` (FHE.cpp
376-379): on a mismatch, the effective space is the GCD of the requested and
compiled-in moduli, and `Error(...)` is raised when that GCD is ≤ 1. -/
def resolvePtxtSpace (ptxtSpace pkSpace : ℤ) : Except String ℤ :=
  if ptxtSpace ≠ pkSpace then
    (if (Int.gcd ptxtSpace pkSpace : ℤ) ≤ 1
     then Except.error "Plaintext-space mismatch on encryption"
     else Except.ok (Int.gcd ptxtSpace pkSpace : ℤ))
  else Except.ok ptxtSpace

/-- The BGV body of `FHEPubKey::Encrypt` (FHE.cpp 381-451) at the resolved
plaintext space `p`: the zero encryption is rerandomized by `r`, scaled
noise is added to each part (Gaussian, except that part 0 of a high-noise
encryption draws uniformly with bound `Q/(8·p)`), the plaintext is added
into part 0, and the noise estimate and watermark are filled in. -/
def EncryptBGV (E : CrtEngine P R) (ctx : FHEcontextModel)
    (fbl : Ctxt R → ℤ) (pk : FHEPubKey R) (ptxt : P) (p : ℤ)
    (highNoise : Bool) (rnd : EncRandom P) : Ctxt R :=
  let ctxt0 := pk.pubEncrKey
  let newParts := ctxt0.parts.mapIdx fun i part =>
    let e : P :=
      if highNoise ∧ i = 0
      then rnd.uniform ((ctx.ctxtPrimesProd : ℤ) / (p * 8))
      else rnd.gauss i
    { part with poly := part.poly * E.enc rnd.r + (p : R) * E.enc e }
  let newParts := newParts.modifyHead fun part =>
    { part with poly := part.poly + E.enc (encodePtxt E ctxt0.primeSetProd p ptxt) }
  let ctxt1 := { ctxt0 with parts := newParts, ptxtSpace := p }
  if highNoise then
    { ctxt1 with
        noiseVar := ((ctx.ctxtPrimesProd : ℚ)) ^ 2 / 8
        highWaterMark := 0 }
  else
    let stdev := if ctx.pow2 then ctx.stdev else ctx.stdev * ctx.sqrtM
    let rVar : ℚ := if ¬ ctx.pow2 then (ctx.phiM : ℚ) / 2 else (ctx.m : ℚ) / 2
    let eVar : ℚ := stdev * stdev
    let sVar : ℚ := ((pk.skSizes.getD 0 0 : ℤ) : ℚ)
    let p2 : ℚ := (p : ℚ) * (p : ℚ)
    let ctxt2 := { ctxt1 with
      noiseVar := pk.pubEncrKey.noiseVar * rVar + p2 * (1 + sVar * (eVar + 1)) }
    { ctxt2 with highWaterMark := fbl ctxt2 }

/-- `FHEPubKey::Encrypt` (FHE.cpp 365-453): dispatch to the CKKS variant
when the context is approximate, otherwise resolve the plaintext space and
run the BGV body, returning the resulting ciphertext and the resolved
space. -/
def Encrypt (E : CrtEngine P R) (ctx : FHEcontextModel) (ro : RealOps)
    (fbl : Ctxt R → ℤ) (pk : FHEPubKey R) (ptxt : P) (ptxtSpace : ℤ)
    (highNoise : Bool) (rnd : EncRandom P) : Except String (Ctxt R × ℤ) :=
  if ctx.ckks then CKKSencrypt E ctx ro fbl pk ptxt ptxtSpace rnd
  else
    Except.map (fun p => (EncryptBGV E ctx fbl pk ptxt p highNoise rnd, p))
      (resolvePtxtSpace ptxtSpace pk.pubEncrKey.ptxtSpace)

/-- Modelled from the spec: `Ctxt::addConstant` (external, missing
`Ctxt.cpp`), used by the symmetric encryption path, whose math is "identical"
to the public path (§4.5): the plaintext is added into part 0, directly for
plaintext space 2 and otherwise scaled by `Q mod ptxtSpace`. -/
def addConstant (E : CrtEngine P R) (ct : Ctxt R) (ptxt : P) : Ctxt R :=
  { ct with parts := ct.parts.modifyHead fun part =>
      { part with poly := part.poly + E.enc (encodePtxt E ct.primeSetProd ct.ptxtSpace ptxt) } }

/-- The random draws consumed by one `FHESecKey::skEncrypt` call: the
uniform `c1` of the fresh RLWE instance (by its integer representative) and
the Gaussian error of `RLWE1`. -/
structure SkEncRandom (P : Type) where
  a1 : P
  e : P

/-- `FHESecKey::skEncrypt` (FHE.cpp 911-974): symmetric encryption directly
under the stored secret key `skIdx`, by a fresh RLWE instance.  `ctxtIn` is
the caller's ciphertext object whose fields are overwritten; `none` models
the failed assertions and a bad key index. -/
def skEncrypt (E : CrtEngine P R) (ctx : FHEcontextModel) (ro : RealOps)
    (fbl : Ctxt R → ℤ) (st : FHESecKeyModel R) (ctxtIn : Ctxt R) (ptxt : P)
    (ptxtSpace : ℤ) (skIdx : ℤ) (rnd : SkEncRandom P) : Option (Ctxt R × ℤ) :=
  let ckks := ctx.ckks
  let ptxtSize : ℤ := if ckks then ptxtSpace else 0
  let pSpace : ℤ :=
    if ckks then 1
    else if ptxtSpace < 2 then st.pubEncrKey.ptxtSpace else ptxtSpace
  if ¬ ckks ∧ pSpace < 2 then none
  else
    match listAt st.sKeys skIdx with
    | none => none
    | some sKey =>
      let rl := RLWE E ctx sKey pSpace rnd.a1 rnd.e
      let ctxt0 := { ctxtIn with
        ptxtSpace := pSpace
        primeSetProd := ctx.ctxtPrimesProd
        parts := [⟨rl.1, SKHandle.one⟩, ⟨rl.2.1, SKHandle.base skIdx⟩] }
      let noiseVar := rl.2.2
      if ckks then
        let factor := ctx.encodeScalingFactor
        let precision := ctx.pPowR
        let extraFactor : ℤ :=
          Int.ceil ((precision : ℚ) * ro.sqrt noiseVar * ro.log2 ctx.m / (factor : ℚ))
        let factor2 := if extraFactor > 1 then factor * extraFactor else factor
        let ptxtTerm : P := if extraFactor > 1 then (extraFactor : P) * ptxt else ptxt
        let ctxt1 := { ctxt0 with
          parts := ctxt0.parts.modifyHead fun part =>
            { part with poly := part.poly + E.enc ptxtTerm }
          ratFactor := (factor2 : ℚ) }
        let rVar : ℚ := if ¬ ctx.pow2 then (ctx.phiM : ℚ) / 4 else (ctx.m : ℚ) / 4
        let ctxt2 := { ctxt1 with
          noiseVar := noiseVar + rVar * (factor2 : ℚ) * (ptxtSize : ℚ)
            * (factor2 : ℚ) * (ptxtSize : ℚ) }
        some ({ ctxt2 with highWaterMark := fbl ctxt2 }, factor2)
      else
        let ctxt1 := { ctxt0 with noiseVar := noiseVar }
        let ctxt2 := { ctxt1 with highWaterMark := fbl ctxt1 }
        some (addConstant E ctxt2 ptxt, pSpace)

/-! ### Decryption (FHE.cpp 843-907) -/

/-- The accumulation loop of `FHESecKey::Decrypt` (FHE.cpp 858-888): for
each ciphertext part, add it directly when its handle is the identity, and
otherwise fetch the named secret key (a copy), apply the recorded
automorphism and then the recorded exponent, multiply by the part and
accumulate.  (The `removePrimes` restriction of the key to the ciphertext's
prime set is the identity in this single-prime-set model.)  `none` models a
bad key index. -/
def decryptLinear (E : CrtEngine P R) (st : FHESecKeyModel R) (ct : Ctxt R) :
    Option R :=
  ct.parts.foldlM (fun acc part =>
    if part.skHandle.isOne then some (acc + part.poly)
    else
      match listAt st.sKeys part.skHandle.secretKeyID with
      | none => none
      | some key =>
        let key := if part.skHandle.powerOfX > 1
          then E.automorph part.skHandle.powerOfX key else key
        let key := if part.skHandle.powerOfS > 1
          then key ^ part.skHandle.powerOfS.toNat else key
        some (acc + key * part.poly)) 0

/-- NTL `InvMod(a, p)` for `0 ≤ a < p`: the modular inverse, or `none`
(NTL raises an error) when `a` is not invertible modulo `p`. -/
def invModOpt (a p : ℤ) : Option ℤ :=
  if Nat.gcd a.toNat p.toNat = 1 then some (Nat.gcdA a.toNat p.toNat % p) else none

/-- The reduction tail of `FHESecKey::Decrypt` (FHE.cpp 889-907) applied to
the coefficient form `f` of the accumulator: return as-is for the CKKS
variant (`ptxtSpace == 1`); for `ptxtSpace > 2` multiply by
`(Q mod p)⁻¹ mod p` when `Q mod p ≠ 1` (NTL `MulMod`, coefficients reduced
into `[0, p)`); finally `PolyRed` every coefficient into `[0, p)`. -/
def decryptReduce (E : CrtEngine P R) (primeSetProd : ℕ) (ptxtSpace : ℤ) (f : P) :
    Option P :=
  if ptxtSpace = 1 then some f
  else
    (if ptxtSpace > 2 then
      (if (primeSetProd : ℤ) % ptxtSpace ≠ 1 then
        match invModOpt ((primeSetProd : ℤ) % ptxtSpace) ptxtSpace with
        | none => none
        | some u => some (E.mkP fun i => (E.coeff f i * u) % ptxtSpace)
      else some f)
    else some f).map fun g => E.mkP fun i => E.coeff g i % ptxtSpace

/-- `FHESecKey::Decrypt` (FHE.cpp 843-907): accumulate the linear form,
convert to coefficient representation, and reduce modulo the plaintext
space. -/
def Decrypt (E : CrtEngine P R) (st : FHESecKeyModel R) (ct : Ctxt R) :
    Option P :=
  (decryptLinear E st ct).bind fun acc =>
    decryptReduce E ct.primeSetProd ct.ptxtSpace (E.toPoly acc)

/-! ### Key-switching-matrix generation and key import (FHE.cpp 729-840) -/

/-- The random draws consumed by one `FHESecKey::GenKeySWmatrix` call: the
256-bit PRG seed and, regenerated from it, the pseudorandom halves `a i`,
plus the Gaussian errors drawn by `RLWE1` for each digit. -/
structure GenKSRandom (P R : Type) where
  seed : ℕ
  a : ℕ → R
  e : ℕ → P

/-- The gadget loop of `GenKeySWmatrix` (FHE.cpp 831-836): add to each digit
polynomial the running multiple of the transformed source key, the multiplier
growing by the product of each digit's primes. -/
def gadgetAdd (fk : R) : List (R × ℕ) → List R
  | [] => []
  | (b, d) :: rest => (b + fk) :: gadgetAdd ((d : R) * fk) rest

/-- The plaintext-space resolution of `GenKeySWmatrix` (FHE.cpp 808-823):
1 for the CKKS variant; otherwise, when unspecified (`p < 2`), the larger
bootstrapping space if the context is bootstrap-capable, else the public
key's default. -/
def resolveKSptxtSpace (ctx : FHEcontextModel) (pkSpace p : ℤ) : ℤ :=
  if ctx.ckks then 1
  else if p < 2 then (if ctx.bootstrappable then ctx.rcPPowR else pkSpace) else p

/-- The key-switching matrix assembled by `GenKeySWmatrix` (FHE.cpp
783-839): the source key transformed by the requested automorphism and
exponent on a copy, one RLWE instance per digit under the destination key,
the prime-scaled gadget multiples of the source key added in, and the
bookkeeping fields. -/
def mkKSmatrix (E : CrtEngine P R) (ctx : FHEcontextModel)
    (fromKey0 toKey : R) (fromSPower fromXPower fromIdx toIdx pRes : ℤ)
    (rnd : GenKSRandom P R) : KeySwitch R :=
  let fromKey1 := if fromXPower > 1 then E.automorph fromXPower fromKey0 else fromKey0
  let fromKey2 := if fromSPower > 1 then fromKey1 ^ fromSPower.toNat else fromKey1
  let n := ctx.digitsProds.length
  let bs := (List.range n).map fun i => (RLWE1 E ctx (rnd.a i) toKey pRes (rnd.e i)).1
  { fromKey := ⟨fromSPower, fromXPower, fromIdx⟩
    toKeyID := toIdx
    ptxtSpace := pRes
    b := gadgetAdd ((ctx.specialPrimesProd : R) * fromKey2) (bs.zip ctx.digitsProds)
    prgSeed := rnd.seed
    noiseVar := if n = 0 then 0 else RLWE1var ctx pRes }

/-- `FHESecKey::GenKeySWmatrix` (FHE.cpp 770-840): reject degenerate
requests, skip when an equivalent matrix exists, transform a copy of the
source key by the requested automorphism and exponent, resolve the plaintext
space, draw one RLWE instance per digit under the destination key, add the
prime-scaled gadget multiples of the source key, and append the matrix to
the registry.  `none` models a thrown `.at` or a failed assertion. -/
def GenKeySWmatrix [DecidableEq R] (E : CrtEngine P R) (ctx : FHEcontextModel)
    (st : FHESecKeyModel R) (fromSPower fromXPower fromIdx toIdx p : ℤ)
    (rnd : GenKSRandom P R) : Option (FHESecKeyModel R) :=
  if fromSPower ≤ 0 ∨ fromXPower ≤ 0 then some st
  else if fromSPower = 1 ∧ fromXPower = 1 ∧ fromIdx = toIdx then some st
  else
    match haveKeySWmatrix st.toFHEPubKey fromSPower fromXPower fromIdx toIdx with
    | none => none
    | some true => some st
    | some false =>
      match listAt st.sKeys fromIdx, listAt st.sKeys toIdx with
      | some fromKey0, some toKey =>
        let pRes : ℤ := resolveKSptxtSpace ctx st.pubEncrKey.ptxtSpace p
        if ¬ ctx.ckks ∧ pRes < 2 then none
        else some { st with keySwitching := st.keySwitching ++
          [mkKSmatrix E ctx fromKey0 toKey fromSPower fromXPower fromIdx toIdx
            pRes rnd] }
      | _, _ => none

/-- The random draws consumed by one `FHESecKey::ImportSecKey` call: the
RLWE draws for the derived public encryption key (first import only) and the
draws for the eagerly generated `s^e → s` matrices. -/
structure ImportRandom (P R : Type) where
  a1 : P
  e : P
  gen : ℕ → GenKSRandom P R

/-- `FHESecKey::ImportSecKey` (FHE.cpp 729-766): on the first import derive
the public zero-encryption by a fresh RLWE instance and fix the default
plaintext space; append the key and its declared size; eagerly generate
`s^e → s` matrices up to `maxDegKswitch`; return the new key's index. -/
def ImportSecKey [DecidableEq R] (E : CrtEngine P R) (ctx : FHEcontextModel) (ro : RealOps)
    (fbl : Ctxt R → ℤ) (st : FHESecKeyModel R) (sKey : R) (size : ℤ)
    (ptxtSpace : ℤ) (maxDegKswitch : ℤ) (rnd : ImportRandom P R) :
    Option (FHESecKeyModel R × ℤ) :=
  let ckks := ctx.ckks
  let st1 :=
    if st.sKeys.isEmpty then
      let p : ℤ := if ptxtSpace < 2 then (if ckks then 1 else ctx.pPowR) else ptxtSpace
      let rl := RLWE E ctx sKey p rnd.a1 rnd.e
      let pub : Ctxt R := { st.pubEncrKey with
        parts := [⟨rl.1, SKHandle.one⟩, ⟨rl.2.1, SKHandle.base 0⟩]
        noiseVar := rl.2.2
        ratFactor := if ckks then ro.sqrt rl.2.2 else st.pubEncrKey.ratFactor
        primeSetProd := ctx.ctxtPrimesProd
        ptxtSpace := p }
      { st with pubEncrKey := pub }
    else st
  let st2 := { st1 with
    skSizes := st1.skSizes ++ [size]
    sKeys := st1.sKeys ++ [sKey] }
  let keyID : ℤ := (st2.sKeys.length : ℤ) - 1
  match (List.range (maxDegKswitch - 1).toNat).foldlM
    (fun s (i : ℕ) => GenKeySWmatrix E ctx s ((i : ℤ) + 2) 1 keyID keyID 0 (rnd.gen i)) st2 with
  | none => none
  | some st3 =>
    if keyID = 0 then
      some ({ st3 with pubEncrKey :=
        { st3.pubEncrKey with highWaterMark := fbl st3.pubEncrKey } }, keyID)
    else some (st3, keyID)

/-! ### Concrete cyclotomic rings instantiating the engine

Two small cyclotomic indices, one a power of two and one not:
`m = 4` with `Phi_4(X) = X² + 1` and `phi(4) = 2`, and `m = 3` with
`Phi_3(X) = X² + X + 1` and `phi(3) = 2`.  Elements are pairs of
coefficients `a0 + a1·X`. -/

/-- Coefficients of `a0 + a1·X` in `α[X]/(X² + 1)`, the cyclotomic ring for
index `m = 4`. -/
@[ext]
structure NegaPair (α : Type) where
  a0 : α
  a1 : α
deriving DecidableEq, Repr

variable {α : Type} [CommRing α]

instance : Zero (NegaPair α) := ⟨⟨0, 0⟩⟩

instance : One (NegaPair α) := ⟨⟨1, 0⟩⟩

instance : Add (NegaPair α) := ⟨fun x y => ⟨x.a0 + y.a0, x.a1 + y.a1⟩⟩

instance : Neg (NegaPair α) := ⟨fun x => ⟨-x.a0, -x.a1⟩⟩

instance : Mul (NegaPair α) :=
  ⟨fun x y => ⟨x.a0 * y.a0 - x.a1 * y.a1, x.a0 * y.a1 + x.a1 * y.a0⟩⟩

@[simp] theorem NegaPair.add_a0 (x y : NegaPair α) : (x + y).a0 = x.a0 + y.a0 := rfl

@[simp] theorem NegaPair.add_a1 (x y : NegaPair α) : (x + y).a1 = x.a1 + y.a1 := rfl

@[simp] theorem NegaPair.neg_a0 (x : NegaPair α) : (-x).a0 = -x.a0 := rfl

@[simp] theorem NegaPair.neg_a1 (x : NegaPair α) : (-x).a1 = -x.a1 := rfl

@[simp] theorem NegaPair.mul_a0 (x y : NegaPair α) :
    (x * y).a0 = x.a0 * y.a0 - x.a1 * y.a1 := rfl

@[simp] theorem NegaPair.mul_a1 (x y : NegaPair α) :
    (x * y).a1 = x.a0 * y.a1 + x.a1 * y.a0 := rfl

@[simp] theorem NegaPair.zero_a0 : (0 : NegaPair α).a0 = 0 := rfl

@[simp] theorem NegaPair.zero_a1 : (0 : NegaPair α).a1 = 0 := rfl

@[simp] theorem NegaPair.one_a0 : (1 : NegaPair α).a0 = 1 := rfl

@[simp] theorem NegaPair.one_a1 : (1 : NegaPair α).a1 = 0 := rfl

instance : CommRing (NegaPair α) where
  add_assoc := by intros; ext <;> simp <;> ring
  zero_add := by intros; ext <;> simp
  add_zero := by intros; ext <;> simp
  add_comm := by intros; ext <;> simp <;> ring
  left_distrib := by intros; ext <;> simp <;> ring
  right_distrib := by intros; ext <;> simp <;> ring
  zero_mul := by intros; ext <;> simp
  mul_zero := by intros; ext <;> simp
  mul_assoc := by intros; ext <;> simp <;> ring
  one_mul := by intros; ext <;> simp
  mul_one := by intros; ext <;> simp
  neg_add_cancel := by intros; ext <;> simp
  mul_comm := by intros; ext <;> simp <;> ring
  nsmul := nsmulRec
  zsmul := zsmulRec
  natCast n := ⟨(n : α), 0⟩
  natCast_zero := by ext <;> simp
  natCast_succ := by
    intro n
    show (⟨((n + 1 : ℕ) : α), 0⟩ : NegaPair α) = ⟨(n : α), 0⟩ + 1
    ext <;> simp
  intCast z := ⟨(z : α), 0⟩
  intCast_ofNat := by
    intro n
    show (⟨(((n : ℕ) : ℤ) : α), 0⟩ : NegaPair α) = ⟨((n : ℕ) : α), 0⟩
    ext <;> simp
  intCast_negSucc := by
    intro n
    show (⟨((Int.negSucc n : ℤ) : α), 0⟩ : NegaPair α) = -⟨((n + 1 : ℕ) : α), 0⟩
    ext <;> simp [Int.negSucc_eq]

@[simp] theorem NegaPair.intCast_a0 (z : ℤ) : ((z : NegaPair α)).a0 = (z : α) := rfl

@[simp] theorem NegaPair.intCast_a1 (z : ℤ) : ((z : NegaPair α)).a1 = 0 := rfl

/-- Coefficients of `a0 + a1·X` in `α[X]/(X² + X + 1)`, the cyclotomic ring
for index `m = 3` (with `X² = -X - 1`). -/
@[ext]
structure CycPair (α : Type) where
  c0 : α
  c1 : α
deriving DecidableEq, Repr

instance : Zero (CycPair α) := ⟨⟨0, 0⟩⟩

instance : One (CycPair α) := ⟨⟨1, 0⟩⟩

instance : Add (CycPair α) := ⟨fun x y => ⟨x.c0 + y.c0, x.c1 + y.c1⟩⟩

instance : Neg (CycPair α) := ⟨fun x => ⟨-x.c0, -x.c1⟩⟩

instance : Mul (CycPair α) :=
  ⟨fun x y => ⟨x.c0 * y.c0 - x.c1 * y.c1, x.c0 * y.c1 + x.c1 * y.c0 - x.c1 * y.c1⟩⟩

@[simp] theorem CycPair.add_c0 (x y : CycPair α) : (x + y).c0 = x.c0 + y.c0 := rfl

@[simp] theorem CycPair.add_c1 (x y : CycPair α) : (x + y).c1 = x.c1 + y.c1 := rfl

@[simp] theorem CycPair.neg_c0 (x : CycPair α) : (-x).c0 = -x.c0 := rfl

@[simp] theorem CycPair.neg_c1 (x : CycPair α) : (-x).c1 = -x.c1 := rfl

@[simp] theorem CycPair.mul_c0 (x y : CycPair α) :
    (x * y).c0 = x.c0 * y.c0 - x.c1 * y.c1 := rfl

@[simp] theorem CycPair.mul_c1 (x y : CycPair α) :
    (x * y).c1 = x.c0 * y.c1 + x.c1 * y.c0 - x.c1 * y.c1 := rfl

@[simp] theorem CycPair.zero_c0 : (0 : CycPair α).c0 = 0 := rfl

@[simp] theorem CycPair.zero_c1 : (0 : CycPair α).c1 = 0 := rfl

@[simp] theorem CycPair.one_c0 : (1 : CycPair α).c0 = 1 := rfl

@[simp] theorem CycPair.one_c1 : (1 : CycPair α).c1 = 0 := rfl

instance : CommRing (CycPair α) where
  add_assoc := by intros; ext <;> simp <;> ring
  zero_add := by intros; ext <;> simp
  add_zero := by intros; ext <;> simp
  add_comm := by intros; ext <;> simp <;> ring
  left_distrib := by intros; ext <;> simp <;> ring
  right_distrib := by intros; ext <;> simp <;> ring
  zero_mul := by intros; ext <;> simp
  mul_zero := by intros; ext <;> simp
  mul_assoc := by intros; ext <;> simp <;> ring
  one_mul := by intros; ext <;> simp
  mul_one := by intros; ext <;> simp
  neg_add_cancel := by intros; ext <;> simp
  mul_comm := by intros; ext <;> simp <;> ring
  nsmul := nsmulRec
  zsmul := zsmulRec
  natCast n := ⟨(n : α), 0⟩
  natCast_zero := by ext <;> simp
  natCast_succ := by
    intro n
    show (⟨((n + 1 : ℕ) : α), 0⟩ : CycPair α) = ⟨(n : α), 0⟩ + 1
    ext <;> simp
  intCast z := ⟨(z : α), 0⟩
  intCast_ofNat := by
    intro n
    show (⟨(((n : ℕ) : ℤ) : α), 0⟩ : CycPair α) = ⟨((n : ℕ) : α), 0⟩
    ext <;> simp
  intCast_negSucc := by
    intro n
    show (⟨((Int.negSucc n : ℤ) : α), 0⟩ : CycPair α) = -⟨((n + 1 : ℕ) : α), 0⟩
    ext <;> simp [Int.negSucc_eq]

@[simp] theorem CycPair.intCast_c0 (z : ℤ) : ((z : CycPair α)).c0 = (z : α) := rfl

@[simp] theorem CycPair.intCast_c1 (z : ℤ) : ((z : CycPair α)).c1 = 0 := rfl

/-- The balanced representative of a residue modulo `Q`: the integer in
`[-Q/2, Q/2)` congruent to it. -/
def blift (Q : ℕ) (x : ZMod Q) : ℤ :=
  if 2 * (x.val : ℤ) < Q then (x.val : ℤ) else (x.val : ℤ) - Q

theorem blift_intCast (Q : ℕ) (hQ : 2 ≤ Q) (a : ℤ)
    (h1 : -(Q : ℤ) ≤ 2 * a) (h2 : 2 * a < Q) : blift Q ((a : ZMod Q)) = a := by
  haveI : NeZero Q := ⟨by omega⟩
  have hval : ((a : ZMod Q).val : ℤ) = a % Q := ZMod.val_intCast a
  unfold blift
  rw [hval]
  rcases le_or_lt 0 a with ha | ha
  · have hmod : a % (Q : ℤ) = a := Int.emod_eq_of_lt ha (by omega)
    rw [hmod, if_pos h2]
  · have hmod : a % (Q : ℤ) = a + Q := by
      have hs : (a + Q) % (Q : ℤ) = a % Q := by
        have := Int.add_mul_emod_self_left (a := a) (b := 1) (c := (Q : ℤ))
        simpa using this
      rw [← hs]
      exact Int.emod_eq_of_lt (by omega) (by omega)
    rw [hmod, if_neg (by omega)]
    omega

/-- The engine instance at cyclotomic index `m = 4` (a power of two):
`P = ℤ[X]/(X²+1)`, `R = (ℤ/Q)[X]/(X²+1)`. -/
def negaEngine (Q : ℕ) (hQ : 2 ≤ Q) :
    CrtEngine (NegaPair ℤ) (NegaPair (ZMod Q)) where
  n := 2
  Q := Q
  two_le_Q := hQ
  enc :=
    { toFun := fun x => ⟨(x.a0 : ZMod Q), (x.a1 : ZMod Q)⟩
      map_one' := by ext <;> simp
      map_mul' := by intro x y; ext <;> simp <;> push_cast <;> ring
      map_zero' := by ext <;> simp
      map_add' := by intro x y; ext <;> simp }
  coeff x := ![x.a0, x.a1]
  mkP f := ⟨f 0, f 1⟩
  automorph k x := if k % 4 = 3 then ⟨x.a0, -x.a1⟩ else x
  coeff_mk := by intro f; funext i; fin_cases i <;> simp
  mk_coeff := by intro x; ext <;> simp
  coeff_add := by intro x y i; fin_cases i <;> simp
  coeff_intMul := by intro z x i; fin_cases i <;> simp
  toPoly x := ⟨blift Q x.a0, blift Q x.a1⟩
  toPoly_enc := by
    intro x hx
    have h0 := hx 0
    have h1 := hx 1
    simp only [Matrix.cons_val_zero, Matrix.cons_val_one, Matrix.head_cons] at h0 h1
    ext
    · exact blift_intCast Q hQ _ h0.1 h0.2
    · exact blift_intCast Q hQ _ h1.1 h1.2

/-- The engine instance at cyclotomic index `m = 3` (not a power of two):
`P = ℤ[X]/(X²+X+1)`, `R = (ℤ/Q)[X]/(X²+X+1)`. -/
def cycEngine (Q : ℕ) (hQ : 2 ≤ Q) :
    CrtEngine (CycPair ℤ) (CycPair (ZMod Q)) where
  n := 2
  Q := Q
  two_le_Q := hQ
  enc :=
    { toFun := fun x => ⟨(x.c0 : ZMod Q), (x.c1 : ZMod Q)⟩
      map_one' := by ext <;> simp
      map_mul' := by intro x y; ext <;> simp <;> push_cast <;> ring
      map_zero' := by ext <;> simp
      map_add' := by intro x y; ext <;> simp }
  coeff x := ![x.c0, x.c1]
  mkP f := ⟨f 0, f 1⟩
  automorph k x := if k % 3 = 2 then ⟨x.c0 - x.c1, -x.c1⟩ else x
  coeff_mk := by intro f; funext i; fin_cases i <;> simp
  mk_coeff := by intro x; ext <;> simp
  coeff_add := by intro x y i; fin_cases i <;> simp
  coeff_intMul := by intro z x i; fin_cases i <;> simp
  toPoly x := ⟨blift Q x.c0, blift Q x.c1⟩
  toPoly_enc := by
    intro x hx
    have h0 := hx 0
    have h1 := hx 1
    simp only [Matrix.cons_val_zero, Matrix.cons_val_one, Matrix.head_cons] at h0 h1
    ext
    · exact blift_intCast Q hQ _ h0.1 h0.2
    · exact blift_intCast Q hQ _ h1.1 h1.2

/-! ### Claim theorems -/

/-- **C9**: `KeySwitch::operator==` does not compare the `noiseVar` field:
for every two key-switching matrices that agree on `fromKey`, `toKeyID`,
`ptxtSpace`, `prgSeed` and the digit vector `b`, equality returns `true`
even when their noise estimates `v` and `w` differ. -/
theorem keySwitchEq_ignores_noiseVar {R : Type} [DecidableEq R]
    (x y : KeySwitch R) (v w : ℚ)
    (h1 : x.fromKey = y.fromKey) (h2 : x.toKeyID = y.toKeyID)
    (h3 : x.ptxtSpace = y.ptxtSpace) (h4 : x.prgSeed = y.prgSeed)
    (h5 : x.b = y.b) :
    KeySwitch.beq { x with noiseVar := v } { y with noiseVar := w } = true := by
  unfold KeySwitch.beq
  simp [h1, h2, h3, h4, h5]

/-- Witness for the `noiseVar`-blindness of `KeySwitch::operator==`: two
concrete matrices differing only in `noiseVar` (1 versus 2) compare equal. -/
theorem keySwitchEq_ignores_noiseVar_witness :
    KeySwitch.beq (R := ℤ) ⟨⟨1, 2, 0⟩, 0, 5, [3], 7, 1⟩ ⟨⟨1, 2, 0⟩, 0, 5, [3], 7, 2⟩
      = true :=
  keySwitchEq_ignores_noiseVar ⟨⟨1, 2, 0⟩, 0, 5, [3], 7, 0⟩ ⟨⟨1, 2, 0⟩, 0, 5, [3], 7, 9⟩
    1 2 rfl rfl rfl rfl rfl

/-- **C8**: `FHEPubKey::operator==` returns `true` (not `false`) when the two
key-switching registries have different sizes, provided the fields compared
before the registry (context identity, zero-encryption, secret-key sizes)
are equal — the early-`return true` at FHE.cpp line 521. -/
theorem pubKeyEq_sizeMismatch_true {R : Type} [DecidableEq R]
    (x y : FHEPubKey R)
    (hctx : x.contextId = y.contextId)
    (hpub : ctxtEqualsTo x.pubEncrKey y.pubEncrKey = true)
    (hsk : x.skSizes = y.skSizes)
    (hlen : x.keySwitching.length ≠ y.keySwitching.length) :
    fhePubKeyEq x y = true := by
  unfold fhePubKeyEq
  rw [if_neg (by simp [hctx]), if_neg (by simp [hpub]), if_neg (by simp [hsk]),
    if_neg (by simp [hsk]), if_pos hlen]

/-- Witness: two concrete public keys, equal except that one registry is
empty and the other holds one matrix, compare equal. -/
theorem pubKeyEq_sizeMismatch_true_witness :
    fhePubKeyEq (R := ℤ)
      ⟨0, ⟨[], 1, 2, 0, 0, 0⟩, [64], [], [], [], -1, ⟨[], 1, 2, 0, 0, 0⟩⟩
      ⟨0, ⟨[], 1, 2, 0, 0, 0⟩, [64], [KeySwitch.dummy ℤ], [], [], -1,
        ⟨[], 1, 2, 0, 0, 0⟩⟩ = true :=
  pubKeyEq_sizeMismatch_true _ _ rfl (by decide) rfl (by decide)

/-- **C10**: in the approximate (CKKS) variant, `FHEPubKey::Encrypt`
delegates to `CKKSencrypt` before examining the `highNoise` flag, so the
result does not depend on it and the high-noise uniform-sampling path is
unreachable. -/
theorem encrypt_ckks_highNoise_irrelevant (E : CrtEngine P R)
    (ctx : FHEcontextModel) (ro : RealOps) (fbl : Ctxt R → ℤ)
    (pk : FHEPubKey R) (ptxt : P) (ptxtSpace : ℤ) (rnd : EncRandom P)
    (hckks : ctx.ckks = true) :
    Encrypt E ctx ro fbl pk ptxt ptxtSpace true rnd
      = Encrypt E ctx ro fbl pk ptxt ptxtSpace false rnd
    ∧ Encrypt E ctx ro fbl pk ptxt ptxtSpace true rnd
      = CKKSencrypt E ctx ro fbl pk ptxt ptxtSpace rnd := by
  unfold Encrypt
  rw [hckks]
  exact ⟨rfl, rfl⟩

/-- Witness for the CKKS delegation, at the concrete `m = 4` engine with
`Q = 33` and trivial oracles. -/
theorem encrypt_ckks_highNoise_irrelevant_witness :
    Encrypt (negaEngine 33 (by norm_num))
        ⟨4, 2, true, 1, 2, 33, 1, [], true, 2, false, 0, 1⟩
        ⟨fun _ => 0, fun _ => 0⟩ (fun _ => 0)
        ⟨0, ⟨[], 33, 1, 0, 0, 0⟩, [64], [], [], [], -1, ⟨[], 33, 1, 0, 0, 0⟩⟩
        ⟨1, 0⟩ 1 true ⟨0, fun _ => 0, fun _ => 0⟩
      = Encrypt (negaEngine 33 (by norm_num))
        ⟨4, 2, true, 1, 2, 33, 1, [], true, 2, false, 0, 1⟩
        ⟨fun _ => 0, fun _ => 0⟩ (fun _ => 0)
        ⟨0, ⟨[], 33, 1, 0, 0, 0⟩, [64], [], [], [], -1, ⟨[], 33, 1, 0, 0, 0⟩⟩
        ⟨1, 0⟩ 1 false ⟨0, fun _ => 0, fun _ => 0⟩ :=
  (encrypt_ckks_highNoise_irrelevant _ _ _ _ _ _ _ _ rfl).1

/-- **C4**: the variance returned by the RLWE sampler equals
`width² · p² · (m or phi(m))` chosen by the power-of-two flag, where the
configured width is first multiplied by `sqrt(m)` when `m` is not a power of
two (so the non-power-of-two variance is `stdev² · m · p² · phi(m)`); for
fixed other inputs the variance is strictly increasing in the configured
width and in the plaintext-scale factor `p`. -/
theorem RLWE1var_formula_and_monotone (ctx : FHEcontextModel) (p : ℤ)
    (hs : ctx.sqrtM ^ 2 = (ctx.m : ℚ)) (hm : 1 ≤ ctx.m) (hphi : 1 ≤ ctx.phiM) :
    (RLWE1var ctx p =
      (if ctx.pow2 then ctx.stdev ^ 2 * (p : ℚ) ^ 2 * (ctx.m : ℚ)
       else ctx.stdev ^ 2 * (ctx.m : ℚ) * (p : ℚ) ^ 2 * (ctx.phiM : ℚ)))
    ∧ (∀ s1 s2 : ℚ, 0 ≤ s1 → s1 < s2 → p ≠ 0 →
        RLWE1var { ctx with stdev := s1 } p < RLWE1var { ctx with stdev := s2 } p)
    ∧ (∀ p1 p2 : ℤ, 0 < p1 → p1 < p2 → 0 < ctx.stdev →
        RLWE1var ctx p1 < RLWE1var ctx p2) := by
  have key : ∀ (s : ℚ) (q : ℤ), RLWE1var { ctx with stdev := s } q =
      s ^ 2 * (if ctx.pow2 then 1 else (ctx.m : ℚ)) * (q : ℚ) ^ 2 *
        (if ctx.pow2 then (ctx.m : ℚ) else (ctx.phiM : ℚ)) := by
    intro s q
    unfold RLWE1var
    by_cases h : ctx.pow2
    · simp only [h, if_pos]
      ring
    · simp only [h, if_neg, Bool.false_eq_true, if_false]
      linear_combination (s ^ 2 * (q : ℚ) ^ 2 * (ctx.phiM : ℚ)) * hs
  have keyc : ∀ (q : ℤ), RLWE1var ctx q =
      ctx.stdev ^ 2 * (if ctx.pow2 then 1 else (ctx.m : ℚ)) * (q : ℚ) ^ 2 *
        (if ctx.pow2 then (ctx.m : ℚ) else (ctx.phiM : ℚ)) := fun q => key ctx.stdev q
  have hmQ : (1 : ℚ) ≤ (ctx.m : ℚ) := by exact_mod_cast hm
  have hphiQ : (1 : ℚ) ≤ (ctx.phiM : ℚ) := by exact_mod_cast hphi
  have hA : 0 < (if ctx.pow2 then (1 : ℚ) else (ctx.m : ℚ)) := by
    split <;> linarith
  have hB : 0 < (if ctx.pow2 then (ctx.m : ℚ) else (ctx.phiM : ℚ)) := by
    split <;> linarith
  refine ⟨?_, ?_, ?_⟩
  · rw [keyc p]
    by_cases h : ctx.pow2
    · simp only [h, if_pos]
      ring
    · simp only [h, Bool.false_eq_true, if_false]
  · intro s1 s2 hs1 hs12 hp
    rw [key s1 p, key s2 p]
    have hq2 : 0 < (p : ℚ) ^ 2 := by
      have : (p : ℚ) ≠ 0 := Int.cast_ne_zero.2 hp
      positivity
    have h12 : s1 ^ 2 < s2 ^ 2 := by nlinarith
    apply mul_lt_mul_of_pos_right _ hB
    apply mul_lt_mul_of_pos_right _ hq2
    exact mul_lt_mul_of_pos_right h12 hA
  · intro p1 p2 hp1 hp12 hstd
    rw [keyc p1, keyc p2]
    have hcast : (p1 : ℚ) < (p2 : ℚ) := by exact_mod_cast hp12
    have hcast0 : (0 : ℚ) < (p1 : ℚ) := by exact_mod_cast hp1
    have h12 : (p1 : ℚ) ^ 2 < (p2 : ℚ) ^ 2 := by nlinarith
    have hSA : 0 < ctx.stdev ^ 2 * (if ctx.pow2 then (1 : ℚ) else (ctx.m : ℚ)) := by
      have : 0 < ctx.stdev ^ 2 := by positivity
      exact mul_pos this hA
    apply mul_lt_mul_of_pos_right _ hB
    exact mul_lt_mul_of_pos_left h12 hSA

/-- Witness for the variance formula and monotonicity at a concrete
non-power-of-two context: `m = 9`, `phi(m) = 6`, `sqrt m = 3`, width 1. -/
theorem RLWE1var_formula_and_monotone_witness :
    (RLWE1var ⟨9, 6, false, 1, 3, 35, 1, [], false, 3, false, 0, 1⟩ 3 =
      1 ^ 2 * (9 : ℚ) * (3 : ℚ) ^ 2 * (6 : ℚ))
    ∧ RLWE1var ⟨9, 6, false, 1, 3, 35, 1, [], false, 3, false, 0, 1⟩ 3 <
        RLWE1var ⟨9, 6, false, 2, 3, 35, 1, [], false, 3, false, 0, 1⟩ 3
    ∧ RLWE1var ⟨9, 6, false, 1, 3, 35, 1, [], false, 3, false, 0, 1⟩ 3 <
        RLWE1var ⟨9, 6, false, 1, 3, 35, 1, [], false, 3, false, 0, 1⟩ 5 := by
  obtain ⟨h1, h2, h3⟩ := RLWE1var_formula_and_monotone
    ⟨9, 6, false, 1, 3, 35, 1, [], false, 3, false, 0, 1⟩ 3
    (by norm_num) (by norm_num) (by norm_num)
  refine ⟨by rw [h1]; norm_num, ?_, ?_⟩
  · exact h2 1 2 (by norm_num) (by norm_num) (by norm_num)
  · exact h3 3 5 (by norm_num) (by norm_num) (by norm_num)

/-- **C6**: BGV public-key encryption resolves the effective plaintext
modulus as `GCD(requested, compiled-in)`: it signals the user-facing
`Error("Plaintext-space mismatch on encryption")` exactly when that GCD
is ≤ 1, and otherwise sets the ciphertext's plaintext space to, and
returns, that GCD. -/
theorem encrypt_ptxtSpace_gcd (E : CrtEngine P R) (ctx : FHEcontextModel)
    (ro : RealOps) (fbl : Ctxt R → ℤ) (pk : FHEPubKey R) (ptxt : P)
    (ptxtSpace : ℤ) (highNoise : Bool) (rnd : EncRandom P)
    (hckks : ctx.ckks = false) (hpk : 2 ≤ pk.pubEncrKey.ptxtSpace) :
    ((∃ msg, Encrypt E ctx ro fbl pk ptxt ptxtSpace highNoise rnd
        = Except.error msg) ↔
      (Int.gcd ptxtSpace pk.pubEncrKey.ptxtSpace : ℤ) ≤ 1)
    ∧ (∀ ct ret,
        Encrypt E ctx ro fbl pk ptxt ptxtSpace highNoise rnd = Except.ok (ct, ret) →
        ret = (Int.gcd ptxtSpace pk.pubEncrKey.ptxtSpace : ℤ)
        ∧ ct.ptxtSpace = (Int.gcd ptxtSpace pk.pubEncrKey.ptxtSpace : ℤ)) := by
  have hptxt : ∀ p, (EncryptBGV E ctx fbl pk ptxt p highNoise rnd).ptxtSpace = p := by
    intro p
    unfold EncryptBGV
    by_cases h : highNoise <;> simp [h]
  have hB : ∀ p, resolvePtxtSpace ptxtSpace pk.pubEncrKey.ptxtSpace = Except.ok p →
      p = (Int.gcd ptxtSpace pk.pubEncrKey.ptxtSpace : ℤ)
      ∧ ¬ ((Int.gcd ptxtSpace pk.pubEncrKey.ptxtSpace : ℤ) ≤ 1) := by
    intro p hp
    unfold resolvePtxtSpace at hp
    by_cases hne : ptxtSpace = pk.pubEncrKey.ptxtSpace
    · rw [if_neg (by simp [hne])] at hp
      obtain rfl : ptxtSpace = p := Except.ok.inj hp
      have hgcd : (Int.gcd ptxtSpace pk.pubEncrKey.ptxtSpace : ℤ) = ptxtSpace := by
        rw [hne, Int.gcd_self]
        exact Int.natAbs_of_nonneg (by omega)
      rw [hgcd]
      exact ⟨rfl, by omega⟩
    · rw [if_pos hne] at hp
      by_cases hg : (Int.gcd ptxtSpace pk.pubEncrKey.ptxtSpace : ℤ) ≤ 1
      · rw [if_pos hg] at hp
        exact Except.noConfusion hp
      · rw [if_neg hg] at hp
        exact ⟨(Except.ok.inj hp).symm, hg⟩
  have hA : (∃ msg, resolvePtxtSpace ptxtSpace pk.pubEncrKey.ptxtSpace
      = Except.error msg) ↔ (Int.gcd ptxtSpace pk.pubEncrKey.ptxtSpace : ℤ) ≤ 1 := by
    unfold resolvePtxtSpace
    by_cases hne : ptxtSpace = pk.pubEncrKey.ptxtSpace
    · rw [if_neg (by simp [hne])]
      constructor
      · rintro ⟨msg, hmsg⟩
        exact Except.noConfusion hmsg
      · intro hle
        have hgcd : (Int.gcd ptxtSpace pk.pubEncrKey.ptxtSpace : ℤ)
            = pk.pubEncrKey.ptxtSpace := by
          rw [hne, Int.gcd_self]
          exact Int.natAbs_of_nonneg (by omega)
        omega
    · rw [if_pos hne]
      by_cases hg : (Int.gcd ptxtSpace pk.pubEncrKey.ptxtSpace : ℤ) ≤ 1
      · rw [if_pos hg]
        exact ⟨fun _ => hg, fun _ => ⟨_, rfl⟩⟩
      · rw [if_neg hg]
        constructor
        · rintro ⟨msg, hmsg⟩
          exact Except.noConfusion hmsg
        · intro hle
          exact absurd hle hg
  unfold Encrypt
  rw [hckks]
  simp only [Bool.false_eq_true, if_false]
  cases hr : resolvePtxtSpace ptxtSpace pk.pubEncrKey.ptxtSpace with
  | error msg =>
    refine ⟨?_, ?_⟩
    · simp only [Except.map]
      exact (iff_true_right (hA.1 ⟨msg, hr⟩)).2 ⟨msg, rfl⟩
    · intro ct ret hok
      simp only [Except.map] at hok
      exact Except.noConfusion hok
  | ok p =>
    obtain ⟨hpg, hgt⟩ := hB p hr
    refine ⟨?_, ?_⟩
    · simp only [Except.map]
      constructor
      · rintro ⟨msg, hmsg⟩
        exact Except.noConfusion hmsg
      · intro hle
        exact absurd hle hgt
    · intro ct ret hok
      simp only [Except.map] at hok
      obtain ⟨h1, h2⟩ := Prod.mk.injEq .. ▸ Except.ok.inj hok
      refine ⟨h2 ▸ hpg, ?_⟩
      rw [← h1, hptxt p, hpg]

/-- Witness for the GCD resolution: with compiled-in plaintext space 2, a
request for 3 has `GCD = 1` and fails with the user-facing error, exactly as
the resolution theorem states. -/
theorem encrypt_ptxtSpace_gcd_witness :
    ((∃ msg, Encrypt (negaEngine 33 (by norm_num))
        ⟨4, 2, true, 1, 2, 33, 1, [], false, 2, false, 0, 1⟩
        ⟨fun _ => 0, fun _ => 0⟩ (fun _ => 0)
        ⟨0, ⟨[], 33, 2, 0, 0, 0⟩, [64], [], [], [], -1, ⟨[], 33, 2, 0, 0, 0⟩⟩
        ⟨1, 0⟩ 3 false ⟨0, fun _ => 0, fun _ => 0⟩ = Except.error msg) ↔
      (Int.gcd 3 2 : ℤ) ≤ 1)
    ∧ (∀ ct ret, Encrypt (negaEngine 33 (by norm_num))
        ⟨4, 2, true, 1, 2, 33, 1, [], false, 2, false, 0, 1⟩
        ⟨fun _ => 0, fun _ => 0⟩ (fun _ => 0)
        ⟨0, ⟨[], 33, 2, 0, 0, 0⟩, [64], [], [], [], -1, ⟨[], 33, 2, 0, 0, 0⟩⟩
        ⟨1, 0⟩ 3 false ⟨0, fun _ => 0, fun _ => 0⟩ = Except.ok (ct, ret) →
        ret = (Int.gcd 3 2 : ℤ) ∧ ct.ptxtSpace = (Int.gcd 3 2 : ℤ)) :=
  encrypt_ptxtSpace_gcd (negaEngine 33 (by norm_num))
    ⟨4, 2, true, 1, 2, 33, 1, [], false, 2, false, 0, 1⟩
    ⟨fun _ => 0, fun _ => 0⟩ (fun _ => 0)
    ⟨0, ⟨[], 33, 2, 0, 0, 0⟩, [64], [], [], [], -1, ⟨[], 33, 2, 0, 0, 0⟩⟩
    ⟨1, 0⟩ 3 false ⟨0, fun _ => 0, fun _ => 0⟩ rfl (by norm_num)

/-- **C7**: when `FHEPubKey::Encrypt` is called with `highNoise = true` in
the BGV variant and succeeds, the recorded noise-variance estimate is
`Q²/8` for `Q` the product of the ctxt primes, the level watermark is reset
to 0, and the parts receive the rerandomized zero-encryption plus scaled
noise where part 0's draw comes from the uniform sampler at bound
`Q/(8·ptxtSpace)` (with the resolved plaintext space) while every other
part draws from the Gaussian sampler. -/
theorem encrypt_highNoise_spec (E : CrtEngine P R) (ctx : FHEcontextModel)
    (ro : RealOps) (fbl : Ctxt R → ℤ) (pk : FHEPubKey R) (ptxt : P)
    (ptxtSpace : ℤ) (rnd : EncRandom P) (ct : Ctxt R) (ret : ℤ)
    (hckks : ctx.ckks = false)
    (h : Encrypt E ctx ro fbl pk ptxt ptxtSpace true rnd = Except.ok (ct, ret)) :
    ct.noiseVar = (ctx.ctxtPrimesProd : ℚ) ^ 2 / 8
    ∧ ct.highWaterMark = 0
    ∧ ct.parts = ((pk.pubEncrKey.parts.mapIdx fun i part =>
        { part with poly := (part.poly * E.enc rnd.r + (ret : R) * E.enc
            (if i = 0 then rnd.uniform ((ctx.ctxtPrimesProd : ℤ) / (ret * 8))
             else rnd.gauss i)) }).modifyHead fun part =>
        { part with poly := (part.poly
            + E.enc (encodePtxt E pk.pubEncrKey.primeSetProd ret ptxt)) }) := by
  unfold Encrypt at h
  rw [hckks] at h
  simp only [Bool.false_eq_true, if_false] at h
  cases hr : resolvePtxtSpace ptxtSpace pk.pubEncrKey.ptxtSpace with
  | error msg =>
    rw [hr] at h
    simp only [Except.map] at h
    exact Except.noConfusion h
  | ok p =>
    rw [hr] at h
    simp only [Except.map] at h
    obtain ⟨h1, h2⟩ := Prod.mk.injEq .. ▸ Except.ok.inj h
    subst h2
    rw [← h1]
    unfold EncryptBGV
    rw [if_pos rfl]
    refine ⟨rfl, rfl, ?_⟩
    simp only [true_and]

theorem invModOpt_spec {a p u : ℤ} (ha : 0 ≤ a) (hp : 0 < p)
    (h : invModOpt a p = some u) : (a * u) % p = 1 % p := by
  unfold invModOpt at h
  split at h
  · next hg =>
    obtain rfl : Nat.gcdA a.toNat p.toNat % p = u := Option.some.inj h
    have hab := Nat.gcd_eq_gcd_ab a.toNat p.toNat
    rw [hg] at hab
    have hcast : ((a.toNat : ℤ)) = a := Int.toNat_of_nonneg ha
    have hcastp : ((p.toNat : ℤ)) = p := Int.toNat_of_nonneg hp.le
    rw [hcast, hcastp] at hab
    have h1 : (a * (Nat.gcdA a.toNat p.toNat % p)) % p
        = (a * Nat.gcdA a.toNat p.toNat) % p := by
      rw [Int.mul_emod, Int.emod_emod_of_dvd _ dvd_rfl, ← Int.mul_emod]
    rw [h1]
    have h2 : a * Nat.gcdA a.toNat p.toNat
        = 1 + p * (-(Nat.gcdB a.toNat p.toNat)) := by
      push_cast at hab
      linarith
    rw [h2, Int.add_mul_emod_self_left]
  · exact Option.noConfusion h

/-- **C2**: for an integer-variant ciphertext with plaintext modulus
`p ≥ 2` (and `Q mod p` invertible, which the claim's "the modular inverse"
presupposes), whenever the product `Q` of the active primes is not ≡ 1
mod `p`, `Decrypt` multiplies the accumulated coefficient-form polynomial
by the modular inverse of `Q mod p` (with NTL `MulMod`'s reduction); and in
all cases the final `PolyRed` puts every coefficient of the result into
`[0, p)`. -/
theorem decrypt_qInverse_and_reduction (E : CrtEngine P R)
    (st : FHESecKeyModel R) (ct : Ctxt R)
    (hp : 2 ≤ ct.ptxtSpace)
    (hco : Nat.Coprime ((ct.primeSetProd : ℤ) % ct.ptxtSpace).toNat
      ct.ptxtSpace.toNat)
    (acc : R) (hacc : decryptLinear E st ct = some acc) :
    (((ct.primeSetProd : ℤ) % ct.ptxtSpace ≠ 1 →
      ∃ u, ((ct.primeSetProd : ℤ) % ct.ptxtSpace * u) % ct.ptxtSpace
          = 1 % ct.ptxtSpace
        ∧ Decrypt E st ct = some (E.mkP fun i =>
            (E.coeff (E.toPoly acc) i * u % ct.ptxtSpace) % ct.ptxtSpace)))
    ∧ (∀ res, Decrypt E st ct = some res →
        ∀ i, 0 ≤ E.coeff res i ∧ E.coeff res i < ct.ptxtSpace) := by
  have hdec : Decrypt E st ct
      = decryptReduce E ct.primeSetProd ct.ptxtSpace (E.toPoly acc) := by
    unfold Decrypt
    rw [hacc]
    rfl
  have hp0 : (0 : ℤ) < ct.ptxtSpace := by omega
  constructor
  · intro hq1
    have hp2 : 2 < ct.ptxtSpace := by
      rcases lt_or_eq_of_le hp with h2 | h2
      · exact h2
      · exfalso
        have hnn : 0 ≤ (ct.primeSetProd : ℤ) % ct.ptxtSpace :=
          Int.emod_nonneg _ (by omega)
        have hlt : (ct.primeSetProd : ℤ) % ct.ptxtSpace < ct.ptxtSpace :=
          Int.emod_lt_of_pos _ hp0
        have hqr : (ct.primeSetProd : ℤ) % ct.ptxtSpace = 0
            ∨ (ct.primeSetProd : ℤ) % ct.ptxtSpace = 1 := by omega
        rcases hqr with h3 | h3
        · rw [h3] at hco
          unfold Nat.Coprime at hco
          simp at hco
          omega
        · exact hq1 h3
    have hinv : ∃ u, invModOpt ((ct.primeSetProd : ℤ) % ct.ptxtSpace)
        ct.ptxtSpace = some u := by
      unfold invModOpt
      rw [if_pos hco]
      exact ⟨_, rfl⟩
    obtain ⟨u, hu⟩ := hinv
    refine ⟨u, invModOpt_spec (Int.emod_nonneg _ (by omega)) hp0 hu, ?_⟩
    rw [hdec]
    unfold decryptReduce
    rw [if_neg (by omega), if_pos hp2, if_pos hq1, hu]
    simp only [Option.map_some']
    refine congrArg some (congrArg E.mkP (funext fun i => ?_))
    rw [E.coeff_mk]
  · intro res hres i
    rw [hdec] at hres
    unfold decryptReduce at hres
    rw [if_neg (by omega)] at hres
    have : ∃ g, res = E.mkP fun j => E.coeff g j % ct.ptxtSpace := by
      split at hres
      · split at hres
        · split at hres
          · exact Option.noConfusion hres
          · next u hu =>
            simp only [Option.map_some'] at hres
            exact ⟨_, (Option.some.inj hres).symm⟩
        · simp only [Option.map_some'] at hres
          exact ⟨_, (Option.some.inj hres).symm⟩
      · simp only [Option.map_some'] at hres
        exact ⟨_, (Option.some.inj hres).symm⟩
    obtain ⟨g, rfl⟩ := this
    rw [E.coeff_mk]
    exact ⟨Int.emod_nonneg _ (by omega), Int.emod_lt_of_pos _ hp0⟩

/-! ### Concrete fixtures used by the witnesses -/

/-- Engine at the power-of-two cyclotomic index `m = 4` with `Q = 33`. -/
def engine4 : CrtEngine (NegaPair ℤ) (NegaPair (ZMod 33)) := negaEngine 33 (by norm_num)

/-- Engine at the non-power-of-two cyclotomic index `m = 3` with `Q = 35`. -/
def engine3 : CrtEngine (CycPair ℤ) (CycPair (ZMod 35)) := cycEngine 35 (by norm_num)

/-- A BGV context for `m = 4`: `phi(4) = 2`, power of two, plaintext space 2. -/
def bgvCtx4 : FHEcontextModel := ⟨4, 2, true, 1, 2, 33, 1, [], false, 2, false, 0, 1⟩

/-- A BGV context for `m = 3`: `phi(3) = 2`, not a power of two, plaintext
space 3. -/
def bgvCtx3 : FHEcontextModel := ⟨3, 2, false, 1, 2, 35, 1, [], false, 3, false, 0, 1⟩

/-- Trivial real-arithmetic oracles. -/
def roZero : RealOps := ⟨fun _ => 0, fun _ => 0⟩

/-- Trivial `findBaseLevel` oracle. -/
def fblZero {R : Type} : Ctxt R → ℤ := fun _ => 0

/-- A public key fixture for the high-noise witness (empty parts suffice for
the bookkeeping fields). -/
def pk4hn : FHEPubKey (NegaPair (ZMod 33)) :=
  ⟨0, ⟨[], 33, 2, 5, 7, 9⟩, [64], [], [], [], -1, ⟨[], 33, 2, 5, 7, 9⟩⟩

/-- A secret-key fixture over the `m = 3` engine (no stored keys needed for
a ciphertext whose only part has the identity handle). -/
def st3w : FHESecKeyModel (CycPair (ZMod 35)) :=
  ⟨⟨0, ⟨[], 35, 3, 0, 0, 0⟩, [], [], [], [], -1, ⟨[], 35, 3, 0, 0, 0⟩⟩, []⟩

/-- A ciphertext fixture over the `m = 3` engine: plaintext space 3, prime
product 35, one identity-handle part. -/
def ct3w : Ctxt (CycPair (ZMod 35)) := ⟨[⟨⟨4, 5⟩, SKHandle.one⟩], 35, 3, 0, 0, 0⟩

/-- Witness for the high-noise encryption bookkeeping: a concrete call with
`highNoise = true` yields noise estimate `33²/8 = 1089/8` and watermark 0. -/
theorem encrypt_highNoise_spec_witness :
    Encrypt engine4 bgvCtx4 roZero fblZero pk4hn ⟨1, 0⟩ 2 true
      ⟨0, fun _ => 0, fun _ => 0⟩ = Except.ok (⟨[], 33, 2, (1089 : ℚ) / 8, 0, 9⟩, 2)
    ∧ ((⟨[], 33, 2, (1089 : ℚ) / 8, 0, 9⟩ : Ctxt (NegaPair (ZMod 33))).noiseVar
        = ((33 : ℕ) : ℚ) ^ 2 / 8
      ∧ (⟨[], 33, 2, (1089 : ℚ) / 8, 0, 9⟩ : Ctxt (NegaPair (ZMod 33))).highWaterMark
        = 0) := by
  have h : Encrypt engine4 bgvCtx4 roZero fblZero pk4hn ⟨1, 0⟩ 2 true
      ⟨0, fun _ => 0, fun _ => 0⟩
      = Except.ok (⟨[], 33, 2, (1089 : ℚ) / 8, 0, 9⟩, 2) := by
    with_unfolding_all decide
  obtain ⟨h1, h2, _⟩ := encrypt_highNoise_spec engine4 bgvCtx4 roZero fblZero pk4hn
    ⟨1, 0⟩ 2 ⟨0, fun _ => 0, fun _ => 0⟩ _ 2 rfl h
  exact ⟨h, h1, h2⟩

/-- Witness for the decryption inverse-and-reduce step: `Q = 35`, `p = 3`,
`Q mod p = 2 ≠ 1`, so decryption multiplies by the inverse of 2 mod 3 and the
result's coefficients lie in `[0, 3)`. -/
theorem decrypt_qInverse_and_reduction_witness :
    (((ct3w.primeSetProd : ℤ) % ct3w.ptxtSpace ≠ 1 →
      ∃ u, ((ct3w.primeSetProd : ℤ) % ct3w.ptxtSpace * u) % ct3w.ptxtSpace
          = 1 % ct3w.ptxtSpace
        ∧ Decrypt engine3 st3w ct3w = some (engine3.mkP fun i =>
            (engine3.coeff (engine3.toPoly ⟨4, 5⟩) i * u % ct3w.ptxtSpace)
              % ct3w.ptxtSpace)))
    ∧ (∀ res, Decrypt engine3 st3w ct3w = some res →
        ∀ i, 0 ≤ engine3.coeff res i ∧ engine3.coeff res i < ct3w.ptxtSpace) :=
  decrypt_qInverse_and_reduction engine3 st3w ct3w (by decide) (by decide)
    ⟨4, 5⟩ (by decide)

/-- A public key fixture for the routing-table witness: one registered
matrix `s_0(X²) → s_0`, so the multiplier set is `{2}` and the reachable
powers modulo 5 are 2, 4, 3, 1. -/
def pk3w : FHEPubKey ℤ :=
  ⟨0, ⟨[], 1, 2, 0, 0, 0⟩, [64], [⟨⟨1, 2, 0⟩, 0, 2, [], 0, 0⟩], [], [], -1,
    ⟨[], 1, 2, 0, 0, 0⟩⟩

/-- The routing-table witness's expected output: every node except 0 maps to
matrix 0. -/
def pk3res : FHEPubKey ℤ :=
  { pk3w with keySwitchMap := [[-1, 0, 0, 0, 0]] }

theorem setKeySwitchMap_pk3w : setKeySwitchMap pk3w 5 0 = some pk3res := by
  have e1 : ksEdges pk3w 0 = [(2, 0)] := by decide
  have hb : bfsLoop 5 (ksEdges pk3w 0) (List.replicate 5 (-1)) [1]
      = some [-1, 0, 0, 0, 0] := by
    rw [e1]
    rw [bfsLoop_cons_eq (p := ([-1, -1, 0, -1, -1], [2])) (by decide)]
    show bfsLoop 5 [(2, 0)] [-1, -1, 0, -1, -1] [2] = some [-1, 0, 0, 0, 0]
    rw [bfsLoop_cons_eq (p := ([-1, -1, 0, -1, 0], [4])) (by decide)]
    show bfsLoop 5 [(2, 0)] [-1, -1, 0, -1, 0] [4] = some [-1, 0, 0, 0, 0]
    rw [bfsLoop_cons_eq (p := ([-1, -1, 0, 0, 0], [3])) (by decide)]
    show bfsLoop 5 [(2, 0)] [-1, -1, 0, 0, 0] [3] = some [-1, 0, 0, 0, 0]
    rw [bfsLoop_cons_eq (p := ([-1, 0, 0, 0, 0], [1])) (by decide)]
    show bfsLoop 5 [(2, 0)] [-1, 0, 0, 0, 0] [1] = some [-1, 0, 0, 0, 0]
    rw [bfsLoop_cons_eq (p := ([-1, 0, 0, 0, 0], [])) (by decide)]
    show bfsLoop 5 [(2, 0)] [-1, 0, 0, 0, 0] [] = some [-1, 0, 0, 0, 0]
    rw [bfsLoop_nil]
  unfold setKeySwitchMap
  rw [if_neg (by decide), hb]
  decide

/-- Witness for the routing-table reachability: the concrete key above, with
multiplier 2 modulo `m = 5`, has exactly the subgroup `{2, 4, 3, 1}` present
(including the identity power 1) and node 0 absent. -/
theorem setKeySwitchMap_reachability_witness :
    ((∀ t : ℕ, (pk3res.keySwitchMap.getD (0 : ℤ).toNat []).getD t (-1) ≠ -1 ↔
        Reach 5 ((ksEdges pk3w 0).map Prod.fst) t)
    ∧ (2 ≤ 5 → (ksEdges pk3w 0).map Prod.fst ≠ [] →
        (∀ k ∈ (ksEdges pk3w 0).map Prod.fst, IsUnit ((k : ZMod 5))) →
        (pk3res.keySwitchMap.getD (0 : ℤ).toNat []).getD 1 (-1) ≠ -1))
    ∧ (pk3res.keySwitchMap.getD (0 : ℤ).toNat []).getD 1 (-1) ≠ -1 := by
  have main := setKeySwitchMap_reachability pk3w pk3res 5 0 setKeySwitchMap_pk3w
  refine ⟨main, main.2 (by norm_num) (by decide) ?_⟩
  intro k hk
  have : k = 2 := by
    have e1 : (ksEdges pk3w 0).map Prod.fst = [2] := by decide
    rw [e1] at hk
    exact List.mem_singleton.1 hk
  subst this
  exact ⟨⟨2, 3, by decide, by decide⟩, rfl⟩

/-- After appending a matrix for source handle `fr` and destination `ti`,
the linear-scan fallback finds some non-dummy matrix. -/
theorem getKeySWscan_append_found {R : Type} [DecidableEq R]
    (pk : FHEPubKey R) (fr : SKHandle) (ti : ℤ) (M : KeySwitch R)
    (hM1 : M.fromKey = fr) (hM2 : M.toKeyID = ti) (hti : 0 ≤ ti) :
    ∃ matrix, getKeySWscan { pk with keySwitching := pk.keySwitching ++ [M] }
        fr ti = some matrix ∧ 0 ≤ matrix.toKeyID := by
  unfold getKeySWscan
  dsimp only
  cases hf : (pk.keySwitching ++ [M]).find?
      (fun ks => ks.toKeyID = ti ∧ ks.fromKey = fr) with
  | none =>
    exfalso
    have hMmem : M ∈ pk.keySwitching ++ [M] := List.mem_append_right _ (by simp)
    have := List.find?_eq_none.1 hf M hMmem
    simp [hM1, hM2] at this
  | some matrix =>
    refine ⟨matrix, rfl, ?_⟩
    have hp := List.find?_some hf
    simp only [decide_eq_true_eq, Bool.and_eq_true] at hp
    have : matrix.toKeyID = ti := hp.1
    omega

/-- After appending a matrix for source handle `fr` and destination `ti` to
a well-formed registry, `getKeySWmatrix` finds some non-dummy matrix for
that request (by the map path or by the linear scan). -/
theorem getKeySWmatrix_append_found {R : Type} [DecidableEq R]
    (pk : FHEPubKey R) (fr : SKHandle) (ti : ℤ) (M : KeySwitch R)
    (hM1 : M.fromKey = fr) (hM2 : M.toKeyID = ti)
    (hti : 0 ≤ ti) (hxp : 0 ≤ fr.powerOfX)
    (hreg : ∀ mat ∈ pk.keySwitching, 0 ≤ mat.toKeyID)
    (hrow : ∀ row ∈ pk.keySwitchMap, fr.powerOfX.toNat < row.length)
    (hidx : ∀ row ∈ pk.keySwitchMap, ∀ v ∈ row, 0 ≤ v →
      v.toNat < pk.keySwitching.length) :
    ∃ matrix, getKeySWmatrix { pk with keySwitching := pk.keySwitching ++ [M] }
        fr ti = some matrix ∧ 0 ≤ matrix.toKeyID := by
  unfold getKeySWmatrix
  by_cases hg : fr.powerOfS = 1 ∧ fr.secretKeyID = ti
      ∧ ti < ((pk.keySwitchMap.length : ℤ))
  · rw [if_pos hg]
    obtain ⟨hg1, hg2, hg3⟩ := hg
    have hrowget : ∃ row, listAt pk.keySwitchMap ti = some row
        ∧ row ∈ pk.keySwitchMap := by
      unfold listAt
      rw [if_pos hti]
      have hlt : ti.toNat < pk.keySwitchMap.length := by omega
      cases hr : pk.keySwitchMap.get? ti.toNat with
      | none =>
        rw [List.get?_eq_none] at hr
        omega
      | some row => exact ⟨row, rfl, List.get?_mem hr⟩
    obtain ⟨row, hrowe, hrowm⟩ := hrowget
    rw [hrowe]
    dsimp only
    have hmatget : ∃ matIdx, listAt row fr.powerOfX = some matIdx
        ∧ matIdx ∈ row := by
      unfold listAt
      rw [if_pos hxp]
      have hlt : fr.powerOfX.toNat < row.length := hrow row hrowm
      cases hr : row.get? fr.powerOfX.toNat with
      | none =>
        rw [List.get?_eq_none] at hr
        omega
      | some v => exact ⟨v, rfl, List.get?_mem hr⟩
    obtain ⟨matIdx, hmate, hmatm⟩ := hmatget
    rw [hmate]
    dsimp only
    by_cases hmi : 0 ≤ matIdx
    · rw [if_pos hmi]
      have hlt : matIdx.toNat < pk.keySwitching.length := hidx row hrowm matIdx hmatm hmi
      have hgetapp : listAt (pk.keySwitching ++ [M]) matIdx
          = pk.keySwitching.get? matIdx.toNat := by
        unfold listAt
        rw [if_pos hmi, List.get?_append hlt]
      cases hmm : pk.keySwitching.get? matIdx.toNat with
      | none =>
        rw [List.get?_eq_none] at hmm
        omega
      | some mat =>
        rw [hgetapp, hmm]
        dsimp only
        by_cases hfk : mat.fromKey = fr
        · rw [if_pos hfk]
          exact ⟨mat, rfl, hreg mat (List.get?_mem hmm)⟩
        · rw [if_neg hfk]
          exact getKeySWscan_append_found pk fr ti M hM1 hM2 hti
    · rw [if_neg hmi]
      exact getKeySWscan_append_found pk fr ti M hM1 hM2 hti
  · rw [if_neg hg]
    exact getKeySWscan_append_found pk fr ti M hM1 hM2 hti

theorem secKeyModel_update_toPub {R : Type} (st : FHESecKeyModel R)
    (L : List (KeySwitch R)) :
    ({ st with keySwitching := L } : FHESecKeyModel R).toFHEPubKey
      = { st.toFHEPubKey with keySwitching := L } := rfl

/-- **C5**: calling `GenKeySWmatrix` a second time with the same
`(fromSPower, fromXPower, fromIdx, toIdx)` arguments (any plaintext space
and randomness) leaves the state — in particular the key-switch matrix
registry — unchanged: the second call returns the first call's state as is.
The hypotheses are registry/table well-formedness invariants: registered
matrices have non-dummy destinations, table rows are long enough for the
requested power of X, and table entries index into the registry. -/
theorem genKeySWmatrix_idempotent [DecidableEq R] (E : CrtEngine P R)
    (ctx : FHEcontextModel) (st0 st1 : FHESecKeyModel R)
    (sp xp fi ti p p2 : ℤ) (rnd rnd2 : GenKSRandom P R)
    (hreg : ∀ mat ∈ st0.keySwitching, 0 ≤ mat.toKeyID)
    (hrow : ∀ row ∈ st0.keySwitchMap, xp.toNat < row.length)
    (hidx : ∀ row ∈ st0.keySwitchMap, ∀ v ∈ row, 0 ≤ v →
      v.toNat < st0.keySwitching.length)
    (h : GenKeySWmatrix E ctx st0 sp xp fi ti p rnd = some st1) :
    GenKeySWmatrix E ctx st1 sp xp fi ti p2 rnd2 = some st1 := by
  unfold GenKeySWmatrix at h ⊢
  by_cases h1 : sp ≤ 0 ∨ xp ≤ 0
  · rw [if_pos h1] at h
    obtain rfl : st0 = st1 := Option.some.inj h
    rw [if_pos h1]
  · rw [if_neg h1] at h ⊢
    by_cases h2 : sp = 1 ∧ xp = 1 ∧ fi = ti
    · rw [if_pos h2] at h
      obtain rfl : st0 = st1 := Option.some.inj h
      rw [if_pos h2]
    · rw [if_neg h2] at h ⊢
      cases hv : haveKeySWmatrix st0.toFHEPubKey sp xp fi ti with
      | none =>
        rw [hv] at h
        exact Option.noConfusion h
      | some b =>
        rw [hv] at h
        cases b with
        | true =>
          obtain rfl : st0 = st1 := Option.some.inj h
          rw [hv]
        | false =>
          cases hf : listAt st0.sKeys fi with
          | none =>
            rw [hf] at h
            dsimp only at h
            exact Option.noConfusion h
          | some fromKey0 =>
            cases ht : listAt st0.sKeys ti with
            | none =>
              rw [hf, ht] at h
              dsimp only at h
              exact Option.noConfusion h
            | some toKey =>
              rw [hf, ht] at h
              dsimp only at h
              by_cases hpres : ¬ ctx.ckks
                  ∧ resolveKSptxtSpace ctx st0.pubEncrKey.ptxtSpace p < 2
              · rw [if_pos hpres] at h
                exact Option.noConfusion h
              · rw [if_neg hpres] at h
                have hti : 0 ≤ ti := by
                  unfold listAt at ht
                  by_cases h3 : 0 ≤ ti
                  · exact h3
                  · rw [if_neg h3] at ht
                    exact Option.noConfusion ht
                have hxp0 : 0 ≤ xp := by omega
                obtain rfl : _ = st1 := Option.some.inj h
                rw [secKeyModel_update_toPub]
                obtain ⟨matrix, hmat, hmat0⟩ :=
                  getKeySWmatrix_append_found st0.toFHEPubKey ⟨sp, xp, fi⟩ ti
                    (mkKSmatrix E ctx fromKey0 toKey sp xp fi ti
                      (resolveKSptxtSpace ctx st0.pubEncrKey.ptxtSpace p) rnd)
                    rfl rfl hti hxp0 hreg hrow hidx
                have hv2 : haveKeySWmatrix
                    { st0.toFHEPubKey with
                      keySwitching := st0.toFHEPubKey.keySwitching ++
                        [mkKSmatrix E ctx fromKey0 toKey sp xp fi ti
                          (resolveKSptxtSpace ctx st0.pubEncrKey.ptxtSpace p)
                          rnd] }
                    sp xp fi ti = some true := by
                  unfold haveKeySWmatrix
                  rw [hmat]
                  simp [hmat0]
                rw [hv2]

/-- A secret-key fixture for the idempotence witness: one stored key, empty
registry and table. -/
def st5w : FHESecKeyModel (NegaPair (ZMod 33)) :=
  ⟨⟨0, ⟨[], 33, 2, 0, 0, 0⟩, [64], [], [], [], -1, ⟨[], 33, 2, 0, 0, 0⟩⟩, [⟨2, 1⟩]⟩

/-- The state after generating the `s² → s` matrix on `st5w`. -/
def st5res : FHESecKeyModel (NegaPair (ZMod 33)) :=
  { st5w with keySwitching :=
      [mkKSmatrix engine4 bgvCtx4 ⟨2, 1⟩ ⟨2, 1⟩ 2 1 0 0 2
        ⟨0, fun _ => 0, fun _ => 0⟩] }

/-- Witness for the idempotence of matrix generation: a concrete `s² → s`
generation appends one matrix, and repeating the call returns the state
unchanged. -/
theorem genKeySWmatrix_idempotent_witness :
    GenKeySWmatrix engine4 bgvCtx4 st5w 2 1 0 0 2 ⟨0, fun _ => 0, fun _ => 0⟩
      = some st5res
    ∧ GenKeySWmatrix engine4 bgvCtx4 st5res 2 1 0 0 2 ⟨0, fun _ => 0, fun _ => 0⟩
      = some st5res := by
  have h : GenKeySWmatrix engine4 bgvCtx4 st5w 2 1 0 0 2 ⟨0, fun _ => 0, fun _ => 0⟩
      = some st5res := by decide
  exact ⟨h, genKeySWmatrix_idempotent engine4 bgvCtx4 st5w st5res 2 1 0 0 2 2 _ _
    (by decide) (by decide) (by decide) h⟩

/-- The decryption reduction tail recovers the plaintext: applied to
`p·W + encodePtxt Q p M` (the linear form of a decrypted fresh
ciphertext, noise `W`), it returns exactly `M` for any plaintext with
coefficients in `[0, p)`, provided `Q mod p` is invertible when `p > 2`. -/
theorem decryptReduce_encodePtxt (E : CrtEngine P R) (Q : ℕ) (p : ℤ) (W M : P)
    (hp : 2 ≤ p) (hM : ∀ i, 0 ≤ E.coeff M i ∧ E.coeff M i < p)
    (hco : 2 < p → Nat.Coprime (((Q : ℤ) % p).toNat) p.toNat) :
    decryptReduce E Q p ((p : P) * W + encodePtxt E Q p M) = some M := by
  have hp0 : (0 : ℤ) < p := by omega
  have hcoeff : ∀ i, E.coeff ((p : P) * W + encodePtxt E Q p M) i
      = p * E.coeff W i + E.coeff (encodePtxt E Q p M) i := by
    intro i
    rw [E.coeff_add, E.coeff_intMul]
  unfold decryptReduce
  rw [if_neg (by omega)]
  rcases eq_or_lt_of_le hp with hp2 | hp2
  · -- p = 2: the plaintext is added unscaled, no inverse branch
    rw [if_neg (by omega)]
    simp only [Option.map_some']
    have hcm : encodePtxt E Q p M = M := by
      unfold encodePtxt
      rw [if_pos hp2.symm]
    refine congrArg some ?_
    conv_rhs => rw [← E.mk_coeff M]
    refine congrArg E.mkP (funext fun i => ?_)
    rw [hcoeff i, hcm, ← hp2]
    have h1 : (2 * E.coeff W i + E.coeff M i) % 2 = E.coeff M i % 2 := by
      rw [add_comm, Int.add_mul_emod_self_left]
    rw [h1]
    exact Int.emod_eq_of_lt (hM i).1 (by have := (hM i).2; omega)
  · -- p > 2
    rw [if_pos hp2]
    have hcm : encodePtxt E Q p M = E.mkP fun i =>
        (E.coeff M i * ((Q : ℤ) % p)) % p := by
      unfold encodePtxt
      rw [if_neg (by omega)]
    by_cases hq : (Q : ℤ) % p ≠ 1
    · rw [if_pos hq]
      have hinv : invModOpt ((Q : ℤ) % p) p = some (Nat.gcdA ((Q : ℤ) % p).toNat
          p.toNat % p) := by
        unfold invModOpt
        rw [if_pos (hco hp2)]
      rw [hinv]
      set u := Nat.gcdA ((Q : ℤ) % p).toNat p.toNat % p with hu
      have huinv : ((Q : ℤ) % p * u) % p = 1 % p :=
        invModOpt_spec (Int.emod_nonneg _ (by omega)) hp0 hinv
      dsimp only
      rw [Option.map_some']
      refine congrArg some ?_
      conv_rhs => rw [← E.mk_coeff M]
      refine congrArg E.mkP (funext fun i => ?_)
      rw [E.coeff_mk, Int.emod_emod_of_dvd _ dvd_rfl]
      rw [hcoeff i, hcm, E.coeff_mk]
      have hf : Int.ModEq p
          (p * E.coeff W i + E.coeff M i * ((Q : ℤ) % p) % p)
          (E.coeff M i * ((Q : ℤ) % p)) := by
        show _ % p = _ % p
        rw [add_comm, Int.add_mul_emod_self_left,
          Int.emod_emod_of_dvd _ dvd_rfl]
      have hq1 : Int.ModEq p (((Q : ℤ) % p) * u) 1 := huinv
      have hstep : Int.ModEq p
          ((p * E.coeff W i + E.coeff M i * ((Q : ℤ) % p) % p) * u)
          (E.coeff M i) := by
        calc (p * E.coeff W i + E.coeff M i * ((Q : ℤ) % p) % p) * u
            ≡ (E.coeff M i * ((Q : ℤ) % p)) * u [ZMOD p] := hf.mul_right u
          _ = E.coeff M i * (((Q : ℤ) % p) * u) := by ring
          _ ≡ E.coeff M i * 1 [ZMOD p] := hq1.mul_left _
          _ = E.coeff M i := mul_one _
      have hfin : ((p * E.coeff W i + E.coeff M i * ((Q : ℤ) % p) % p) * u) % p
          = E.coeff M i % p := hstep
      rw [hfin]
      exact Int.emod_eq_of_lt (hM i).1 (hM i).2
    · rw [if_neg hq]
      rw [not_not] at hq
      simp only [Option.map_some']
      refine congrArg some ?_
      conv_rhs => rw [← E.mk_coeff M]
      refine congrArg E.mkP (funext fun i => ?_)
      rw [hcoeff i, hcm, E.coeff_mk, hq, mul_one]
      have h1 : (p * E.coeff W i + E.coeff M i % p) % p = E.coeff M i % p % p := by
        rw [add_comm, Int.add_mul_emod_self_left]
      rw [h1, Int.emod_emod_of_dvd _ dvd_rfl]
      exact Int.emod_eq_of_lt (hM i).1 (hM i).2

/-- Decryption of a fresh two-part ciphertext `(c0, c1)` whose linear form
`c0 + s·c1` is the reduction of `p·W + encodePtxt p M` with balanced
coefficients: the plaintext `M` is recovered exactly. -/
theorem Decrypt_two_part (E : CrtEngine P R) (st : FHESecKeyModel R)
    (ct : Ctxt R) (S W M : P) (p : ℤ) (q0 q1 : R)
    (hsk : listAt st.sKeys 0 = some (E.enc S))
    (hparts : ct.parts = [⟨q0, SKHandle.one⟩, ⟨q1, SKHandle.base 0⟩])
    (hps : ct.ptxtSpace = p) (hprod : ct.primeSetProd = E.Q)
    (hsum : q0 + E.enc S * q1 = E.enc ((p : P) * W + encodePtxt E E.Q p M))
    (hp : 2 ≤ p) (hM : ∀ i, 0 ≤ E.coeff M i ∧ E.coeff M i < p)
    (hco : 2 < p → Nat.Coprime (((E.Q : ℤ) % p).toNat) p.toNat)
    (hbal : balanced E ((p : P) * W + encodePtxt E E.Q p M)) :
    Decrypt E st ct = some M := by
  have hone : SKHandle.isOne SKHandle.one = true := rfl
  have hbase : SKHandle.isOne (SKHandle.base 0) = false := rfl
  have hsid : (SKHandle.base 0).secretKeyID = 0 := rfl
  have hpx : (SKHandle.base 0).powerOfX = 1 := rfl
  have hpsx : (SKHandle.base 0).powerOfS = 1 := rfl
  have hgt : ((1 : ℤ) > 1) = False := eq_false (by decide)
  have hlin : decryptLinear E st ct = some (0 + q0 + E.enc S * q1) := by
    unfold decryptLinear
    rw [hparts]
    simp only [List.foldlM_cons, List.foldlM_nil, hone, hbase, hsid, hpx, hpsx,
      hgt, eq_self_iff_true, if_true, Bool.false_eq_true, if_false,
      Option.pure_def, Option.some_bind, hsk]
    rfl
  unfold Decrypt
  rw [hlin]
  show decryptReduce E ct.primeSetProd ct.ptxtSpace
      (E.toPoly (0 + q0 + E.enc S * q1)) = some M
  rw [zero_add, hsum, hps, hprod,
    E.toPoly_enc ((p : P) * W + encodePtxt E E.Q p M) hbal]
  exact decryptReduce_encodePtxt E E.Q p W M hp hM hco

/-- The BGV encryption body on a two-part public encryption key, low-noise
path: each part is rerandomized by `r` and masked with `p` times a Gaussian
draw, and the encoded plaintext is added into part 0; the resolved plaintext
space and the key's prime set are recorded. -/
theorem EncryptBGV_fields (E : CrtEngine P R) (ctx : FHEcontextModel)
    (fbl : Ctxt R → ℤ) (pk : FHEPubKey R) (M : P) (p : ℤ) (rnd : EncRandom P)
    (z0 z1 : R) (h0 h1 : SKHandle)
    (hpk : pk.pubEncrKey.parts = [⟨z0, h0⟩, ⟨z1, h1⟩]) :
    (EncryptBGV E ctx fbl pk M p false rnd).parts
      = [⟨z0 * E.enc rnd.r + (p : R) * E.enc (rnd.gauss 0)
            + E.enc (encodePtxt E pk.pubEncrKey.primeSetProd p M), h0⟩,
         ⟨z1 * E.enc rnd.r + (p : R) * E.enc (rnd.gauss 1), h1⟩]
    ∧ (EncryptBGV E ctx fbl pk M p false rnd).ptxtSpace = p
    ∧ (EncryptBGV E ctx fbl pk M p false rnd).primeSetProd
        = pk.pubEncrKey.primeSetProd := by
  refine ⟨?_, ?_, ?_⟩ <;>
    simp only [EncryptBGV, hpk, List.mapIdx_cons, List.mapIdx_nil,
      Bool.false_eq_true, false_and, if_false, List.modifyHead_cons,
      Nat.zero_add, Nat.add_zero]

/-- `FHEPubKey::Encrypt` on a BGV context with the requested plaintext space
equal to the key's: the request resolves to itself and the BGV body runs. -/
theorem Encrypt_resolves (E : CrtEngine P R) (ctx : FHEcontextModel)
    (ro : RealOps) (fbl : Ctxt R → ℤ) (pk : FHEPubKey R) (M : P) (p : ℤ)
    (rnd : EncRandom P) (hckks : ctx.ckks = false)
    (hps : pk.pubEncrKey.ptxtSpace = p) :
    Encrypt E ctx ro fbl pk M p false rnd
      = Except.ok (EncryptBGV E ctx fbl pk M p false rnd, p) := by
  unfold Encrypt
  rw [hckks, if_neg Bool.false_ne_true, hps]
  unfold resolvePtxtSpace
  rw [if_neg (fun h => h rfl)]
  rfl

/-- `FHESecKey::skEncrypt` on a BGV context at key index 0 and plaintext
space `p ≥ 2`: the call succeeds and produces the fresh RLWE pair
`(p·e - a1·s + encodePtxt p M, a1)` with the scheme's prime set. -/
theorem skEncrypt_fields (E : CrtEngine P R) (ctx : FHEcontextModel)
    (ro : RealOps) (fbl : Ctxt R → ℤ) (st : FHESecKeyModel R) (ctIn : Ctxt R)
    (M : P) (p : ℤ) (rnd : SkEncRandom P) (k : R)
    (hckks : ctx.ckks = false) (hp : 2 ≤ p)
    (hsk0 : listAt st.sKeys 0 = some k) :
    ∃ ct, skEncrypt E ctx ro fbl st ctIn M p 0 rnd = some (ct, p)
      ∧ ct.parts = [⟨(p : R) * E.enc rnd.e - E.enc rnd.a1 * k
            + E.enc (encodePtxt E ctx.ctxtPrimesProd p M), SKHandle.one⟩,
          ⟨E.enc rnd.a1, SKHandle.base 0⟩]
      ∧ ct.ptxtSpace = p ∧ ct.primeSetProd = ctx.ctxtPrimesProd := by
  refine ⟨addConstant E
      { ctIn with
          parts := [⟨(p : R) * E.enc rnd.e - E.enc rnd.a1 * k, SKHandle.one⟩,
                    ⟨E.enc rnd.a1, SKHandle.base 0⟩]
          primeSetProd := ctx.ctxtPrimesProd
          ptxtSpace := p
          noiseVar := RLWE1var ctx p
          highWaterMark := fbl { ctIn with
            parts := [⟨(p : R) * E.enc rnd.e - E.enc rnd.a1 * k, SKHandle.one⟩,
                      ⟨E.enc rnd.a1, SKHandle.base 0⟩]
            primeSetProd := ctx.ctxtPrimesProd
            ptxtSpace := p
            noiseVar := RLWE1var ctx p } } M, ?_, ?_, ?_, ?_⟩
  · simp only [skEncrypt, RLWE, RLWE1, hckks, Bool.false_eq_true, if_false,
      if_neg (show ¬ p < 2 by omega), not_false_eq_true, true_and, hsk0,
      if_pos (show p > 1 by omega)]
  · rfl
  · rfl
  · rfl

/-- **C1**: round trip for an honestly generated key: for a BGV (non-CKKS)
context, a secret key `s` stored at index 0, a public encryption key that is
an honest RLWE zero-encryption `(p·e_pk − a1·s, a1)` at plaintext space
`p ≥ 2`, and any plaintext `M` with coefficients in `[0, p)`, both the
public-key path (`FHEPubKey::Encrypt`) and the symmetric path
(`FHESecKey::skEncrypt`) produce ciphertexts that `FHESecKey::Decrypt` maps
back to exactly `M`, provided the fresh noise fits in balanced range modulo
the prime product `Q` and `Q mod p` is invertible when `p > 2`. -/
theorem encrypt_decrypt_roundTrip (E : CrtEngine P R) (ctx : FHEcontextModel)
    (ro : RealOps) (fbl : Ctxt R → ℤ) (st : FHESecKeyModel R) (ctIn : Ctxt R)
    (S A1 Epk M : P) (p : ℤ) (rndE : EncRandom P) (rndS : SkEncRandom P)
    (hckks : ctx.ckks = false)
    (hQ : ctx.ctxtPrimesProd = E.Q)
    (hp : 2 ≤ p)
    (hpub : st.pubEncrKey.parts
      = [⟨(p : R) * E.enc Epk - E.enc A1 * E.enc S, SKHandle.one⟩,
         ⟨E.enc A1, SKHandle.base 0⟩])
    (hps : st.pubEncrKey.ptxtSpace = p)
    (hprod : st.pubEncrKey.primeSetProd = E.Q)
    (hsk : listAt st.sKeys 0 = some (E.enc S))
    (hM : ∀ i, 0 ≤ E.coeff M i ∧ E.coeff M i < p)
    (hco : 2 < p → Nat.Coprime (((E.Q : ℤ) % p).toNat) p.toNat)
    (hNpub : balanced E ((p : P) * (rndE.r * Epk + rndE.gauss 0 + rndE.gauss 1 * S)
      + encodePtxt E E.Q p M))
    (hNsk : balanced E ((p : P) * rndS.e + encodePtxt E E.Q p M)) :
    (∃ ct, Encrypt E ctx ro fbl st.toFHEPubKey M p false rndE
        = Except.ok (ct, p) ∧ Decrypt E st ct = some M)
    ∧ (∃ ct, skEncrypt E ctx ro fbl st ctIn M p 0 rndS = some (ct, p)
        ∧ Decrypt E st ct = some M) := by
  constructor
  · obtain ⟨hparts1, hps1, hprod1⟩ :=
      EncryptBGV_fields E ctx fbl st.toFHEPubKey M p rndE _ _ _ _ hpub
    rw [hprod] at hparts1 hprod1
    refine ⟨_, Encrypt_resolves E ctx ro fbl st.toFHEPubKey M p rndE hckks hps,
      ?_⟩
    refine Decrypt_two_part E st _ S
      (rndE.r * Epk + rndE.gauss 0 + rndE.gauss 1 * S) M p _ _
      hsk hparts1 hps1 hprod1 ?_ hp hM hco hNpub
    simp only [map_add, map_mul, map_intCast]
    ring
  · obtain ⟨ct2, henc2, hparts2, hps2, hprod2⟩ :=
      skEncrypt_fields E ctx ro fbl st ctIn M p rndS (E.enc S) hckks hp hsk
    rw [hQ] at hparts2 hprod2
    refine ⟨ct2, henc2, ?_⟩
    refine Decrypt_two_part E st ct2 S rndS.e M p _ _
      hsk hparts2 hps2 hprod2 ?_ hp hM hco hNsk
    simp only [map_add, map_mul, map_intCast]
    ring

/-- Round-trip fixture (`m = 4`): the secret key. -/
def S4rt : NegaPair ℤ := ⟨1, 1⟩

/-- Round-trip fixture (`m = 4`): the public key's uniform draw. -/
def A4rt : NegaPair ℤ := ⟨3, 2⟩

/-- Round-trip fixture (`m = 4`): the public key's Gaussian error. -/
def E4rt : NegaPair ℤ := ⟨1, 0⟩

/-- Round-trip fixture (`m = 4`): the plaintext, coefficients in `[0, 2)`. -/
def M4rt : NegaPair ℤ := ⟨1, 0⟩

/-- Round-trip fixture (`m = 4`): the public-path encryption randomness. -/
def rndE4rt : EncRandom (NegaPair ℤ) :=
  ⟨⟨1, 0⟩, fun i => if i = 0 then ⟨0, 1⟩ else ⟨1, 0⟩, fun _ => 0⟩

/-- Round-trip fixture (`m = 4`): the symmetric-path randomness. -/
def rndS4rt : SkEncRandom (NegaPair ℤ) := ⟨⟨1, 2⟩, ⟨2, 3⟩⟩

/-- Round-trip fixture (`m = 4`): a secret-key state whose public encryption
key is the honest RLWE zero-encryption under `S4rt` at plaintext space 2. -/
def st4rt : FHESecKeyModel (NegaPair (ZMod 33)) :=
  { contextId := 0
    pubEncrKey :=
      { parts := [⟨((2 : ℤ) : NegaPair (ZMod 33)) * engine4.enc E4rt
            - engine4.enc A4rt * engine4.enc S4rt, SKHandle.one⟩,
          ⟨engine4.enc A4rt, SKHandle.base 0⟩]
        primeSetProd := 33
        ptxtSpace := 2
        noiseVar := 0
        highWaterMark := 0
        ratFactor := 0 }
    skSizes := [2]
    keySwitching := []
    keySwitchMap := []
    KS_strategy := []
    recryptKeyID := -1
    recryptEkey := ⟨[], 33, 2, 0, 0, 0⟩
    sKeys := [engine4.enc S4rt] }

/-- Round-trip fixture (`m = 3`): the secret key. -/
def S3rt : CycPair ℤ := ⟨1, 1⟩

/-- Round-trip fixture (`m = 3`): the public key's uniform draw. -/
def A3rt : CycPair ℤ := ⟨2, 1⟩

/-- Round-trip fixture (`m = 3`): the public key's Gaussian error. -/
def E3rt : CycPair ℤ := ⟨1, 0⟩

/-- Round-trip fixture (`m = 3`): the plaintext, coefficients in `[0, 3)`. -/
def M3rt : CycPair ℤ := ⟨2, 1⟩

/-- Round-trip fixture (`m = 3`): the public-path encryption randomness. -/
def rndE3rt : EncRandom (CycPair ℤ) :=
  ⟨⟨1, 0⟩, fun i => if i = 0 then ⟨1, 1⟩ else ⟨0, 1⟩, fun _ => 0⟩

/-- Round-trip fixture (`m = 3`): the symmetric-path randomness. -/
def rndS3rt : SkEncRandom (CycPair ℤ) := ⟨⟨1, 1⟩, ⟨2, 2⟩⟩

/-- Round-trip fixture (`m = 3`): a secret-key state whose public encryption
key is the honest RLWE zero-encryption under `S3rt` at plaintext space 3. -/
def st3rt : FHESecKeyModel (CycPair (ZMod 35)) :=
  { contextId := 0
    pubEncrKey :=
      { parts := [⟨((3 : ℤ) : CycPair (ZMod 35)) * engine3.enc E3rt
            - engine3.enc A3rt * engine3.enc S3rt, SKHandle.one⟩,
          ⟨engine3.enc A3rt, SKHandle.base 0⟩]
        primeSetProd := 35
        ptxtSpace := 3
        noiseVar := 0
        highWaterMark := 0
        ratFactor := 0 }
    skSizes := [2]
    keySwitching := []
    keySwitchMap := []
    KS_strategy := []
    recryptKeyID := -1
    recryptEkey := ⟨[], 35, 3, 0, 0, 0⟩
    sKeys := [engine3.enc S3rt] }

/-- Witness for C1: the round trip at the power-of-two index `m = 4`
(plaintext space 2) and at the non-power-of-two index `m = 3` (plaintext
space 3, exercising the `Q mod p ≠ 1` inverse branch of `Decrypt`), for both
the public-key and the symmetric encryption paths. -/
theorem encrypt_decrypt_roundTrip_witness :
    ((∃ ct, Encrypt engine4 bgvCtx4 roZero fblZero st4rt.toFHEPubKey M4rt 2
          false rndE4rt = Except.ok (ct, 2)
        ∧ Decrypt engine4 st4rt ct = some M4rt)
      ∧ (∃ ct, skEncrypt engine4 bgvCtx4 roZero fblZero st4rt
            ⟨[], 33, 2, 0, 0, 0⟩ M4rt 2 0 rndS4rt = some (ct, 2)
          ∧ Decrypt engine4 st4rt ct = some M4rt))
    ∧ ((∃ ct, Encrypt engine3 bgvCtx3 roZero fblZero st3rt.toFHEPubKey M3rt 3
          false rndE3rt = Except.ok (ct, 3)
        ∧ Decrypt engine3 st3rt ct = some M3rt)
      ∧ (∃ ct, skEncrypt engine3 bgvCtx3 roZero fblZero st3rt
            ⟨[], 35, 3, 0, 0, 0⟩ M3rt 3 0 rndS3rt = some (ct, 3)
          ∧ Decrypt engine3 st3rt ct = some M3rt)) :=
  ⟨encrypt_decrypt_roundTrip engine4 bgvCtx4 roZero fblZero st4rt
      ⟨[], 33, 2, 0, 0, 0⟩ S4rt A4rt E4rt M4rt 2 rndE4rt rndS4rt
      rfl rfl (by decide) rfl rfl rfl rfl
      (by decide) (by decide) (by decide) (by decide),
   encrypt_decrypt_roundTrip engine3 bgvCtx3 roZero fblZero st3rt
      ⟨[], 35, 3, 0, 0, 0⟩ S3rt A3rt E3rt M3rt 3 rndE3rt rndS3rt
      rfl rfl (by decide) rfl rfl rfl rfl
      (by decide) (by decide) (by decide) (by decide)⟩

end HElib
